import Mathlib

/-!
Shallow embedding of the core state machines of the poe-contracts repository:
the tg4-engagement reward/membership engine, the tg4-stake staking engine
(claims ledger and membership derivation) and the tgrade-valset validator
metadata validation.  Machine integers (u64/u128/i128) are modelled as
`Nat`/`Int` with explicit reductions modulo `2^64`/`2^128` where the Rust code
wraps, and with `Option`/`Except` results where checked arithmetic panics
(cosmwasm contracts are compiled with overflow checks, and a panic aborts and
rolls back the transaction).
-/

namespace PoE

abbrev Addr := String

def U64SIZE : Nat := 2 ^ 64

def U128SIZE : Nat := 2 ^ 128

def I128MIN : Int := -(2 ^ 127)

def I128MAX : Int := 2 ^ 127 - 1

/-- Reinterpretation of a `u128` bit pattern as `i128` (Rust `as i128` cast,
which never fails). -/
def i128ofU128 (n : Nat) : Int :=
  if n < 2 ^ 127 then (n : Int) else (n : Int) - (U128SIZE : Int)

/-- Reinterpretation of an `i128` value as `u128` (Rust `as u128` cast):
the value modulo `2^128`. -/
def u128ofI128 (i : Int) : Nat := (i % (U128SIZE : Int)).toNat

/-! Association-list model of the host's key-value maps (the storage map
library is an external collaborator of the contracts; `alookup`, `aset` and
`aremove` model `Map::may_load`, `Map::save`/`update` and `Map::remove`). -/

def alookup {κ ν : Type} [BEq κ] (l : List (κ × ν)) (k : κ) : Option ν :=
  (l.find? (fun kv => kv.1 == k)).map (fun kv => kv.2)

def aset {κ ν : Type} [BEq κ] : List (κ × ν) → κ → ν → List (κ × ν)
  | [], k, v => [(k, v)]
  | kv :: rest, k, v => if kv.1 == k then (k, v) :: rest else kv :: aset rest k v

def aremove {κ ν : Type} [BEq κ] (l : List (κ × ν)) (k : κ) : List (κ × ν) :=
  l.filter (fun kv => !(kv.1 == k))

def akeys {κ ν : Type} (l : List (κ × ν)) : List κ := l.map (fun kv => kv.1)

abbrev keysNodup {κ ν : Type} (l : List (κ × ν)) : Prop := (akeys l).Nodup

/-- Sum of the points of all entries of a members map (`sum(M[*].points)`). -/
def sumPoints (l : List (Addr × Nat)) : Nat := (l.map (fun kv => kv.2)).sum

/-! Engagement engine (tg4-engagement/src/contract.rs). -/

/-- Modelled from the spec: the `SHARES_SHIFT` constant lives in
tg4-engagement/src/state.rs, which is not among the provided sources; the spec
fixes it as "a fixed left-shift of 32 bits". -/
def SHARES_SHIFT : Nat := 32

/-- Denominator of the host library's `Decimal` fixed-point type
(18 decimal places); a decimal is represented here by its numerator. -/
def DECIMAL_FRACTIONAL : Nat := 10 ^ 18

/-- Multiplication `Uint128 * Decimal` of the host library:
`floor(a * num / 10^18)` (computed with a 256-bit intermediate). -/
def mulDecimal (a : Nat) (num : Nat) : Nat := a * num / DECIMAL_FRACTIONAL

structure WithdrawAdjustment where
  shares_correction : Int
  withdrawn_rewards : Nat
  delegated : Addr
deriving DecidableEq, Repr

structure Distribution where
  denom : String
  shares_per_point : Nat
  shares_leftover : Nat
  distributed_total : Nat
  withdrawable_total : Nat
deriving DecidableEq, Repr

structure EEState where
  members : List (Addr × Nat)
  total : Nat
  distribution : Distribution
  adjustments : List (Addr × WithdrawAdjustment)
deriving DecidableEq, Repr

structure MemberDiff where
  key : Addr
  old : Option Nat
  new : Option Nat
deriving DecidableEq, Repr

structure Response where
  attributes : List (String × String) := []
  events : List (String × List (String × String)) := []
  messages : List String := []
deriving DecidableEq, Repr

inductive ContractError where
  | unauthorized (msg : String)
  | noMembersToDistributeTo
  | invalidPortion
  | zeroAmount
  | invalidDenom
  | invalidMetadata (data : String) (min max : Nat)
  | invalidMetadataWebsitePrefix
  | overflowPanic
deriving DecidableEq, Repr

/-- Modelled from the spec: `validate_portion` lives in the tg-utils package,
which is not among the provided sources; the spec says "Portion must be a
decimal in `[0,1]`" (a `Decimal` is non-negative by construction), rejected
with `InvalidPortion`. -/
def validate_portion (portion : Nat) : Except ContractError Unit :=
  if portion ≤ DECIMAL_FRACTIONAL then .ok () else .error .invalidPortion

/-- Embedding of `withdrawable_rewards` (tg4-engagement/src/contract.rs):
`ppw * points` is a checked u128 multiplication, the result is reinterpreted
as `i128`, the correction is added (checked), the sum is reinterpreted as
`u128`, shifted right by `SHARES_SHIFT`, and the withdrawn amount is
subtracted (checked).  `none` models a panic of checked arithmetic. -/
def withdrawable_rewards (ppw : Nat) (points : Nat)
    (adjustment : WithdrawAdjustment) : Option Nat :=
  if ppw * points < U128SIZE then
    let p : Int := i128ofU128 (ppw * points)
    let s : Int := p + adjustment.shares_correction
    if I128MIN ≤ s ∧ s ≤ I128MAX then
      let amount : Nat := (u128ofI128 s) >>> SHARES_SHIFT
      if adjustment.withdrawn_rewards ≤ amount then
        some (amount - adjustment.withdrawn_rewards)
      else none
    else none
  else none

/-- Embedding of `apply_points_correction`'s arithmetic on one adjustment
record: `shares_correction - (shares_per_point as i128) * diff` with checked
i128 multiplication and subtraction. -/
def apply_points_correction (adjustment : WithdrawAdjustment)
    (shares_per_point : Nat) (diff : Int) : Option WithdrawAdjustment :=
  let s : Int := i128ofU128 shares_per_point
  let prod : Int := s * diff
  if I128MIN ≤ prod ∧ prod ≤ I128MAX then
    let c : Int := adjustment.shares_correction - prod
    if I128MIN ≤ c ∧ c ≤ I128MAX then
      some { adjustment with shares_correction := c }
    else none
  else none

/-- Default withdraw adjustment inserted when an address has none yet
(`delegated` defaults to the address itself). -/
def defaultAdjustment (addr : Addr) : WithdrawAdjustment :=
  { shares_correction := 0, withdrawn_rewards := 0, delegated := addr }

/-- The `WITHDRAW_ADJUSTMENT.update` performed by `apply_points_correction`:
load the record (or a default one) and store the corrected record. -/
def updateAdjustmentFor (adjustments : List (Addr × WithdrawAdjustment))
    (addr : Addr) (ppw : Nat) (diff : Int) :
    Option (List (Addr × WithdrawAdjustment)) :=
  let old := (alookup adjustments addr).getD (defaultAdjustment addr)
  (apply_points_correction old ppw diff).map (fun a => aset adjustments addr a)

/-- Embedding of `execute_distribute_rewards` (tg4-engagement/src/contract.rs).
`balance` is the contract's bank balance in the distribution denom.  The u128
left shift discards high bits (Rust `<<` does not check value overflow), while
the subsequent additions are checked. -/
def execute_distribute_rewards (st : EEState) (balance : Nat) (sender : Addr) :
    Except ContractError (EEState × Response) :=
  if st.total == 0 then .error .noMembersToDistributeTo
  else if balance < st.distribution.withdrawable_total then .error .overflowPanic
  else
    let amount := balance - st.distribution.withdrawable_total
    if amount == 0 then .ok (st, {})
    else
      let leftover := st.distribution.shares_leftover
      let shifted := (amount * 2 ^ SHARES_SHIFT) % U128SIZE
      if U128SIZE ≤ shifted + leftover then .error .overflowPanic
      else
        let pts := shifted + leftover
        let points_per_share := pts / st.total
        let new_leftover := (pts % st.total) % U64SIZE
        if U128SIZE ≤ st.distribution.shares_per_point + points_per_share then
          .error .overflowPanic
        else if U128SIZE ≤ st.distribution.distributed_total + amount then
          .error .overflowPanic
        else if U128SIZE ≤ st.distribution.withdrawable_total + amount then
          .error .overflowPanic
        else
          .ok ({ st with distribution :=
                  { st.distribution with
                    shares_per_point := st.distribution.shares_per_point + points_per_share,
                    shares_leftover := new_leftover,
                    distributed_total := st.distribution.distributed_total + amount,
                    withdrawable_total := st.distribution.withdrawable_total + amount } },
               { attributes := [("action", "distribute_rewards"), ("sender", sender),
                                ("denom", st.distribution.denom),
                                ("amount", toString amount)] })

/-- Embedding of `execute_slash` (tg4-engagement/src/contract.rs): slasher
check, then early no-op return for a non-member, then portion validation,
member update `new = old - old * portion`, points correction and TOTAL update
(`(total as i128 + diff) as u64`). -/
def execute_slash (slashers : List Addr) (st : EEState) (sender : Addr)
    (addr : Addr) (portion : Nat) :
    Except ContractError (EEState × Response) :=
  if ¬ slashers.contains sender then
    .error (.unauthorized "Sender is not on slashers list")
  else
    match alookup st.members addr with
    | none => .ok (st, {})
    | some old =>
      match validate_portion portion with
      | .error e => .error e
      | .ok _ =>
        let ppw := st.distribution.shares_per_point
        let slash := mulDecimal old portion
        let newPoints := old - slash
        let diff : Int := -(slash : Int)
        match updateAdjustmentFor st.adjustments addr ppw diff with
        | none => .error .overflowPanic
        | some adjs =>
          let t := ((((st.total : Int) + diff) % (U64SIZE : Int)).toNat)
          .ok ({ st with members := aset st.members addr newPoints,
                         total := t, adjustments := adjs },
               { attributes := [("action", "slash"), ("addr", addr),
                                ("sender", sender)] })

/-- Loop of `update_members` over the `to_add` list: replace the member's
points, adjust the running total (`total -= old; total += add.points`, both
checked u64 operations) and apply the points correction. -/
def process_adds (ppw : Nat) :
    List (Addr × Nat) → EEState → List MemberDiff →
    Except ContractError (EEState × List MemberDiff)
  | [], st, diffs => .ok (st, diffs)
  | (addr, pts) :: rest, st, diffs =>
    let old := (alookup st.members addr).getD 0
    let diffs' := diffs ++ [⟨addr, alookup st.members addr, some pts⟩]
    if st.total < old then .error .overflowPanic
    else if U64SIZE ≤ st.total - old + pts then .error .overflowPanic
    else
      match updateAdjustmentFor st.adjustments addr ppw ((pts : Int) - (old : Int)) with
      | none => .error .overflowPanic
      | some adjs =>
        process_adds ppw rest
          { st with members := aset st.members addr pts,
                    total := st.total - old + pts, adjustments := adjs } diffs'

/-- Loop of `update_members` over the `to_remove` list: only present members
are processed (removed from the map, total decremented, correction applied). -/
def process_removes (ppw : Nat) :
    List Addr → EEState → List MemberDiff →
    Except ContractError (EEState × List MemberDiff)
  | [], st, diffs => .ok (st, diffs)
  | addr :: rest, st, diffs =>
    match alookup st.members addr with
    | none => process_removes ppw rest st diffs
    | some pts =>
      if st.total < pts then .error .overflowPanic
      else
        match updateAdjustmentFor st.adjustments addr ppw (-(pts : Int)) with
        | none => .error .overflowPanic
        | some adjs =>
          process_removes ppw rest
            { st with members := aremove st.members addr,
                      total := st.total - pts, adjustments := adjs }
            (diffs ++ [⟨addr, some pts, none⟩])

/-- Embedding of `update_members` (tg4-engagement/src/contract.rs): the
prevailing `shares_per_point` is loaded once, all additions are processed,
then all removals, and the new total is stored. -/
def update_members (st : EEState) (to_add : List (Addr × Nat))
    (to_remove : List Addr) :
    Except ContractError (EEState × List MemberDiff) :=
  let ppw := st.distribution.shares_per_point
  match process_adds ppw to_add st [] with
  | .error e => .error e
  | .ok (st1, diffs) => process_removes ppw to_remove st1 diffs

/-- Embedding of `execute_add_points`: the member's new points are
`old + points` (checked u64 addition), applied through `update_members`. -/
def execute_add_points (st : EEState) (addr : Addr) (points : Nat) :
    Except ContractError (EEState × List MemberDiff) :=
  let old := (alookup st.members addr).getD 0
  if U64SIZE ≤ old + points then .error .overflowPanic
  else update_members st [(addr, old + points)] []

/-- Embedding of `sudo_add_member`: a trusted single-member edit through
`update_members`. -/
def sudo_add_member (st : EEState) (addr : Addr) (points : Nat) :
    Except ContractError (EEState × List MemberDiff) :=
  update_members st [(addr, points)] []

/-- Running-total accumulation of `create` (`total += member.points` is a
checked u64 addition for each entry of the list). -/
def sumPointsChecked : List (Addr × Nat) → Nat → Option Nat
  | [], acc => some acc
  | (_, p) :: rest, acc =>
    if U64SIZE ≤ acc + p then none else sumPointsChecked rest (acc + p)

/-- Embedding of `create` (tg4-engagement instantiation): saves every member
of the list (later saves overwrite earlier ones at the same address), a
default withdraw adjustment for each, the zeroed distribution and the
accumulated total. -/
def create (members_list : List (Addr × Nat)) (denom : String) :
    Option EEState :=
  match sumPointsChecked members_list 0 with
  | none => none
  | some total =>
    some { members := members_list.foldl (fun m ap => aset m ap.1 ap.2) [],
           total := total,
           distribution := { denom := denom, shares_per_point := 0,
                             shares_leftover := 0, distributed_total := 0,
                             withdrawable_total := 0 },
           adjustments := members_list.foldl
             (fun l ap => aset l ap.1 (defaultAdjustment ap.1)) [] }

structure Halflife where
  halflife : Option Nat
  last_applied : Nat
deriving DecidableEq, Repr

/-- Modelled from the spec: `Halflife::should_apply` lives in
tg4-engagement/src/state.rs, which is not among the provided sources; per the
spec the halflife applies when `duration` is `Some(d)` and
`now ≥ last_applied + d`. -/
def should_apply (hf : Halflife) (now : Nat) : Bool :=
  match hf.halflife with
  | none => false
  | some d => decide (hf.last_applied + d ≤ now)

/-- Embedding of `points_reduction` (tg4-engagement/src/contract.rs):
`points - points / 2`. -/
def points_reduction (points : Nat) : Nat := points - points / 2

/-- Loop of `end_block` over the collected members with more than one point:
each is replaced by `points - points_reduction points`, the reduction is
accumulated and the points correction applied. -/
def end_block_loop (ppw : Nat) :
    List (Addr × Nat) → EEState → Nat →
    Except ContractError (EEState × Nat)
  | [], st, reduction => .ok (st, reduction)
  | (addr, pts) :: rest, st, reduction =>
    let diff := points_reduction pts
    match updateAdjustmentFor st.adjustments addr ppw (-(diff : Int)) with
    | none => .error .overflowPanic
    | some adjs =>
      end_block_loop ppw rest
        { st with members := aset st.members addr (pts - diff),
                  adjustments := adjs }
        (reduction + diff)

/-- Embedding of `end_block` (tg4-engagement/src/contract.rs): when the
halflife is due, every member with more than one point is halved, the total is
decremented by the accumulated reduction (checked u64 subtraction),
`last_applied` is set to the current block time, and a `halflife` event with
the block height and the reduction is emitted. -/
def end_block (st : EEState) (hf : Halflife) (now : Nat) (height : Nat) :
    Except ContractError (EEState × Halflife × Response) :=
  if ¬ should_apply hf now then .ok (st, hf, {})
  else
    let ppw := st.distribution.shares_per_point
    let members_to_update := st.members.filter (fun ap => decide (1 < ap.2))
    match end_block_loop ppw members_to_update st 0 with
    | .error e => .error e
    | .ok (st1, reduction) =>
      if st1.total < reduction then .error .overflowPanic
      else
        .ok ({ st1 with total := st1.total - reduction },
             { hf with last_applied := now },
             { events := [("halflife",
                           [("height", toString height),
                            ("reduction", toString reduction)])] })

/-- Effect of one due halflife application on a single member's points, as
performed by `end_block`: members with at most one point are skipped, any
other member loses `points_reduction points`. -/
def applyHalflife (points : Nat) : Nat :=
  if points ≤ 1 then points else points - points_reduction points

/-- Engagement-engine states (members, total, adjustments, distribution)
reachable from instantiation by the membership-changing execute and sudo
operations.  The instantiation member list is required to have pairwise
distinct addresses. -/
inductive EEReachable : EEState → Prop where
  | created : ∀ ml denom st, create ml denom = some st → (akeys ml).Nodup →
      EEReachable st
  | updated_members : ∀ st add rem st' diffs, EEReachable st →
      update_members st add rem = .ok (st', diffs) → EEReachable st'
  | added_points : ∀ st a p st' diffs, EEReachable st →
      execute_add_points st a p = .ok (st', diffs) → EEReachable st'
  | sudo_updated : ∀ st a p st' diffs, EEReachable st →
      sudo_add_member st a p = .ok (st', diffs) → EEReachable st'
  | slashed : ∀ sl st sender a portion st' r, EEReachable st →
      execute_slash sl st sender a portion = .ok (st', r) → EEReachable st'
  | ended_block : ∀ st hf now h st' hf' r, EEReachable st →
      end_block st hf now h = .ok (st', hf', r) → EEReachable st'

/-! Stake engine (tg4-stake/src/contract.rs and tg4-stake/src/claim.rs). -/

structure StakeConfig where
  denom : String
  tokens_per_point : Nat
  min_bond : Nat
  unbonding_period : Nat
  auto_return_limit : Nat
deriving DecidableEq, Repr

/-- Embedding of `calc_points` (tg4-stake/src/contract.rs): below `min_bond`
the address is not a member; otherwise the points are
`stake / tokens_per_point` cast `as u64` (the cast truncates modulo `2^64`). -/
def calc_points (stake : Nat) (cfg : StakeConfig) : Option Nat :=
  if stake < cfg.min_bond then none
  else some ((stake / cfg.tokens_per_point) % U64SIZE)

/-- Embedding of `update_membership` (tg4-stake/src/contract.rs): derive the
new points from the stake, short-circuit when unchanged, otherwise write or
remove the member, update the total (`total + new - old`, checked u64
arithmetic) and report the diff handed to the registered hooks.  `none`
models a checked-arithmetic panic. -/
def update_membership (members : List (Addr × Nat)) (total : Nat)
    (sender : Addr) (new_stake : Nat) (cfg : StakeConfig) :
    Option (List (Addr × Nat) × Nat × Option MemberDiff) :=
  let new := calc_points new_stake cfg
  let old := alookup members sender
  if new == old then some (members, total, none)
  else
    let members' := match new with
      | some p => aset members sender p
      | none => aremove members sender
    if U64SIZE ≤ total + new.getD 0 then none
    else if total + new.getD 0 < old.getD 0 then none
    else some (members', total + new.getD 0 - old.getD 0, some ⟨sender, old, new⟩)

structure Claim where
  addr : Addr
  amount : Nat
  vesting_amount : Option Nat
  release_at : Nat
  creation_height : Nat
deriving DecidableEq, Repr

abbrev ClaimsMap := List ((Addr × Nat) × Claim)

/-- Embedding of `Claims::create_claim` (tg4-stake/src/claim.rs): the map is
keyed by `(addr, release_at)`; an existing claim at the key has both amounts
incremented (checked u128 additions) and keeps its other fields, otherwise a
fresh claim is inserted. -/
def create_claim (claims : ClaimsMap) (addr : Addr)
    (amount vesting_amount : Nat) (release_at : Nat) (creation_height : Nat) :
    Option ClaimsMap :=
  match alookup claims (addr, release_at) with
  | some c =>
    if U128SIZE ≤ c.amount + amount then none
    else if U128SIZE ≤ c.vesting_amount.getD 0 + vesting_amount then none
    else some (aset claims (addr, release_at)
      { c with amount := c.amount + amount,
               vesting_amount := some (c.vesting_amount.getD 0 + vesting_amount) })
  | none => some (aset claims (addr, release_at)
      { addr := addr, amount := amount, vesting_amount := some vesting_amount,
        release_at := release_at, creation_height := creation_height })

structure SEState where
  stake : List (Addr × Nat)
  vstake : List (Addr × Nat)
  members : List (Addr × Nat)
  total : Nat
  claims : ClaimsMap
deriving DecidableEq, Repr

/-- Embedding of `execute_unbond` (tg4-stake/src/contract.rs): positive
amount of the configured denom, saturating liquid-stake decrement, checked
vesting-stake decrement, claim creation at `release_at = now +
unbonding_period` (the `Duration::after` of the spec, in one common time
unit), and membership recomputation from the remaining stake. -/
def execute_unbond (cfg : StakeConfig) (st : SEState) (sender : Addr)
    (amount : Nat) (denom : String) (now height : Nat) :
    Except ContractError (SEState × Response) :=
  if amount == 0 then .error .zeroAmount
  else if ¬ (cfg.denom == denom) then .error .invalidDenom
  else
    let stake := (alookup st.stake sender).getD 0
    let new_stake := stake - amount
    let vesting_amount := amount - stake
    let vstake := (alookup st.vstake sender).getD 0
    if vstake < vesting_amount then .error .overflowPanic
    else
      let new_vstake := vstake - vesting_amount
      let completion := now + cfg.unbonding_period
      match create_claim st.claims sender (min stake amount) vesting_amount
          completion height with
      | none => .error .overflowPanic
      | some claims' =>
        if U128SIZE ≤ new_stake + new_vstake then .error .overflowPanic
        else
          match update_membership st.members st.total sender
              (new_stake + new_vstake) cfg with
          | none => .error .overflowPanic
          | some (ms, t, _) =>
            .ok ({ st with stake := aset st.stake sender new_stake,
                           vstake := aset st.vstake sender new_vstake,
                           members := ms, total := t, claims := claims' },
                 { attributes := [("action", "unbond"),
                                  ("amount", toString amount),
                                  ("denom", denom), ("sender", sender),
                                  ("completion_time", toString completion)] })

/-- Stake-engine member/total states reachable from instantiation
(`TOTAL = 0`, no members) through `update_membership`, the single place where
bond, unbond and slash rewrite membership. -/
inductive SEReachable : List (Addr × Nat) → Nat → Prop where
  | created : SEReachable [] 0
  | stepped : ∀ ms t a s cfg ms' t' d, SEReachable ms t →
      update_membership ms t a s cfg = some (ms', t', d) → SEReachable ms' t'

/-! Validator engine metadata (tgrade-valset/src/msg.rs). -/

structure ValidatorMetadata where
  moniker : String
  identity : Option String
  website : Option String
  security_contact : Option String
  details : Option String
deriving DecidableEq, Repr

def MIN_MONIKER_LENGTH : Nat := 3

def MIN_METADATA_SIZE : Nat := 1

def MAX_METADATA_SIZE : Nat := 256

/-- Check applied by `ValidatorMetadata::validate` to each optional field:
present but empty, or present and longer than 256 bytes. -/
def optFieldInvalid (field : Option String) : Bool :=
  match field with
  | none => false
  | some s => decide (s.utf8ByteSize = 0) || decide (MAX_METADATA_SIZE < s.utf8ByteSize)

/-- Byte-prefix test of Rust's `str::starts_with`, modelled on the character
list of the string (equivalent to the byte prefix on valid UTF-8). -/
def strStartsWith (s pre : String) : Bool := pre.data.isPrefixOf s.data

/-- Website prefix check of `ValidatorMetadata::validate`: a present website
must start with `https://` or `http://`. -/
def websiteBadStart (field : Option String) : Bool :=
  match field with
  | none => false
  | some w => !(strStartsWith w "https://" || strStartsWith w "http://")

/-- Embedding of `ValidatorMetadata::validate` (tgrade-valset/src/msg.rs).
Rust's `String::len` is the UTF-8 byte length, matching `utf8ByteSize`.  The
`data` payload for the security contact is the source's literal
"security_contract". -/
def ValidatorMetadata.validate (m : ValidatorMetadata) :
    Except ContractError Unit :=
  if m.moniker.utf8ByteSize < MIN_MONIKER_LENGTH ∨
      MAX_METADATA_SIZE < m.moniker.utf8ByteSize then
    .error (.invalidMetadata "moniker" MIN_MONIKER_LENGTH MAX_METADATA_SIZE)
  else if optFieldInvalid m.identity then
    .error (.invalidMetadata "identity" MIN_METADATA_SIZE MAX_METADATA_SIZE)
  else if optFieldInvalid m.website then
    .error (.invalidMetadata "website" MIN_METADATA_SIZE MAX_METADATA_SIZE)
  else if websiteBadStart m.website then
    .error .invalidMetadataWebsitePrefix
  else if optFieldInvalid m.security_contact then
    .error (.invalidMetadata "security_contract" MIN_METADATA_SIZE MAX_METADATA_SIZE)
  else if optFieldInvalid m.details then
    .error (.invalidMetadata "details" MIN_METADATA_SIZE MAX_METADATA_SIZE)
  else .ok ()

/-! Helper lemmas about the association-map model. -/

section MapLemmas

variable {κ ν : Type} [BEq κ] [LawfulBEq κ] [DecidableEq κ]

theorem akeys_cons (kv : κ × ν) (l : List (κ × ν)) :
    akeys (kv :: l) = kv.1 :: akeys l := rfl

theorem alookup_cons (kv : κ × ν) (l : List (κ × ν)) (k : κ) :
    alookup (kv :: l) k = if kv.1 = k then some kv.2 else alookup l k := by
  by_cases he : kv.1 = k <;> simp [alookup, List.find?_cons, he]

theorem aremove_cons (kv : κ × ν) (l : List (κ × ν)) (k : κ) :
    aremove (kv :: l) k = if kv.1 = k then aremove l k else kv :: aremove l k := by
  by_cases he : kv.1 = k <;> simp [aremove, List.filter_cons, he]

theorem aset_cons (kv : κ × ν) (l : List (κ × ν)) (k : κ) (v : ν) :
    aset (kv :: l) k v = if kv.1 = k then (k, v) :: l else kv :: aset l k v := by
  rw [aset]
  by_cases he : kv.1 = k <;> simp [he]

theorem alookup_aset_self (l : List (κ × ν)) (k : κ) (v : ν) :
    alookup (aset l k v) k = some v := by
  induction l with
  | nil => simp [aset, alookup_cons]
  | cons kv rest ih =>
    rw [aset_cons]
    by_cases he : kv.1 = k
    · simp [he, alookup_cons]
    · simp [he, alookup_cons, ih]

theorem alookup_aset_ne (l : List (κ × ν)) (k k' : κ) (v : ν) (h : k' ≠ k) :
    alookup (aset l k v) k' = alookup l k' := by
  have hkk : ¬ (k = k') := fun hc => h hc.symm
  induction l with
  | nil => simp [aset, alookup_cons, hkk]
  | cons kv rest ih =>
    rw [aset_cons]
    by_cases he : kv.1 = k
    · rw [if_pos he]
      simp [alookup_cons, he, hkk]
    · rw [if_neg he, alookup_cons, alookup_cons, ih]

theorem mem_akeys_aset (l : List (κ × ν)) (k b : κ) (v : ν)
    (h : b ∈ akeys (aset l k v)) : b ∈ akeys l ∨ b = k := by
  induction l with
  | nil => simp [aset, akeys] at h; simp [h]
  | cons kv rest ih =>
    rw [aset_cons] at h
    by_cases he : kv.1 = k
    · rw [if_pos he, akeys_cons] at h
      rcases List.mem_cons.mp h with h' | h'
      · right; exact h'
      · left; rw [akeys_cons]; exact List.mem_cons_of_mem _ h'
    · rw [if_neg he, akeys_cons] at h
      rcases List.mem_cons.mp h with h' | h'
      · left; rw [akeys_cons, h']; exact List.mem_cons_self _ _
      · rcases ih h' with h'' | h''
        · left; rw [akeys_cons]; exact List.mem_cons_of_mem _ h''
        · right; exact h''

theorem keysNodup_aset (l : List (κ × ν)) (k : κ) (v : ν)
    (h : keysNodup l) : keysNodup (aset l k v) := by
  induction l with
  | nil => simp [aset, keysNodup, akeys]
  | cons kv rest ih =>
    rw [keysNodup, akeys_cons, List.nodup_cons] at h
    rw [keysNodup, aset_cons]
    by_cases he : kv.1 = k
    · rw [if_pos he, akeys_cons, List.nodup_cons]
      exact ⟨by rw [← he]; exact h.1, h.2⟩
    · rw [if_neg he, akeys_cons, List.nodup_cons]
      refine ⟨fun hmem => ?_, ih h.2⟩
      rcases mem_akeys_aset rest k kv.1 v hmem with h' | h'
      · exact h.1 h'
      · exact he h'

theorem alookup_aremove_self (l : List (κ × ν)) (k : κ) :
    alookup (aremove l k) k = none := by
  induction l with
  | nil => rfl
  | cons kv rest ih =>
    rw [aremove_cons]
    by_cases he : kv.1 = k
    · rw [if_pos he]; exact ih
    · rw [if_neg he, alookup_cons, if_neg he]; exact ih

theorem alookup_aremove_ne (l : List (κ × ν)) (k k' : κ) (h : k' ≠ k) :
    alookup (aremove l k) k' = alookup l k' := by
  induction l with
  | nil => rfl
  | cons kv rest ih =>
    rw [aremove_cons]
    by_cases he : kv.1 = k
    · rw [if_pos he, alookup_cons, if_neg (fun hc : kv.1 = k' => h (hc.symm.trans he))]
      exact ih
    · rw [if_neg he, alookup_cons, alookup_cons, ih]

theorem akeys_aremove (l : List (κ × ν)) (k : κ) :
    akeys (aremove l k) = (akeys l).filter (fun b => !(b == k)) := by
  induction l with
  | nil => rfl
  | cons kv rest ih =>
    rw [aremove_cons, akeys_cons, List.filter_cons]
    by_cases he : kv.1 = k
    · simp [he, ih]
    · simp [he, akeys_cons, ih]

theorem keysNodup_aremove (l : List (κ × ν)) (k : κ) (h : keysNodup l) :
    keysNodup (aremove l k) := by
  rw [keysNodup, akeys_aremove]
  exact List.Nodup.filter _ h

theorem alookup_eq_none_of_not_mem (l : List (κ × ν)) (k : κ)
    (h : k ∉ akeys l) : alookup l k = none := by
  induction l with
  | nil => rfl
  | cons kv rest ih =>
    rw [akeys_cons, List.mem_cons, not_or] at h
    rw [alookup_cons, if_neg (fun he => h.1 he.symm)]
    exact ih h.2

theorem mem_akeys_of_alookup (l : List (κ × ν)) (k : κ) (v : ν)
    (h : alookup l k = some v) : k ∈ akeys l := by
  by_contra hc
  rw [alookup_eq_none_of_not_mem l k hc] at h
  exact Option.noConfusion h

theorem alookup_of_mem_nodup (l : List (κ × ν)) (k : κ) (v : ν)
    (hnd : keysNodup l) (hm : (k, v) ∈ l) : alookup l k = some v := by
  induction l with
  | nil => cases hm
  | cons kv rest ih =>
    rw [keysNodup, akeys_cons, List.nodup_cons] at hnd
    rcases List.mem_cons.mp hm with he | hm'
    · rw [← he, alookup_cons, if_pos rfl]
    · have hk : k ∈ akeys rest := by
        rw [akeys]
        exact List.mem_map.mpr ⟨(k, v), hm', rfl⟩
      rw [alookup_cons, if_neg (fun he' : kv.1 = k => hnd.1 (by rw [he']; exact hk))]
      exact ih hnd.2 hm'

theorem aremove_of_not_mem (l : List (κ × ν)) (k : κ) (h : k ∉ akeys l) :
    aremove l k = l := by
  induction l with
  | nil => rfl
  | cons kv rest ih =>
    rw [akeys_cons, List.mem_cons, not_or] at h
    rw [aremove_cons, if_neg (fun he => h.1 he.symm), ih h.2]

theorem aset_of_not_mem (l : List (κ × ν)) (k : κ) (v : ν)
    (h : k ∉ akeys l) : aset l k v = l ++ [(k, v)] := by
  induction l with
  | nil => rfl
  | cons kv rest ih =>
    rw [akeys_cons, List.mem_cons, not_or] at h
    rw [aset_cons, if_neg (fun he => h.1 he.symm), ih h.2, List.cons_append]

theorem foldl_aset_of_disjoint {ν : Type} (ml acc : List (Addr × ν))
    (hd : ∀ a ∈ akeys ml, a ∉ akeys acc) (hn : (akeys ml).Nodup) :
    ml.foldl (fun m ap => aset m ap.1 ap.2) acc = acc ++ ml := by
  induction ml generalizing acc with
  | nil => simp
  | cons ap rest ih =>
    rw [List.foldl_cons]
    have h1 : ap.1 ∉ akeys acc := hd ap.1 (by rw [akeys_cons]; exact List.mem_cons_self _ _)
    rw [aset_of_not_mem acc ap.1 ap.2 h1]
    rw [akeys_cons, List.nodup_cons] at hn
    have hd' : ∀ a ∈ akeys rest, a ∉ akeys (acc ++ [(ap.1, ap.2)]) := by
      intro a ha
      rw [akeys, List.map_append, List.mem_append, not_or]
      refine ⟨hd a (by rw [akeys_cons]; exact List.mem_cons_of_mem _ ha), ?_⟩
      simp only [List.map_cons, List.map_nil, List.mem_singleton]
      exact fun he => hn.1 (he ▸ ha)
    rw [ih (acc ++ [(ap.1, ap.2)]) hd' hn.2, List.append_assoc]
    simp

end MapLemmas

theorem sumPoints_cons (kv : Addr × Nat) (l : List (Addr × Nat)) :
    sumPoints (kv :: l) = kv.2 + sumPoints l := by
  simp [sumPoints]

theorem sumPoints_append (l l' : List (Addr × Nat)) :
    sumPoints (l ++ l') = sumPoints l + sumPoints l' := by
  simp [sumPoints]

theorem sumPoints_aset (l : List (Addr × Nat)) (a : Addr) (p : Nat) :
    sumPoints (aset l a p) + (alookup l a).getD 0 = sumPoints l + p := by
  induction l with
  | nil => simp [aset, sumPoints, alookup]
  | cons kv rest ih =>
    rw [aset_cons]
    by_cases he : kv.1 = a
    · rw [if_pos he, sumPoints_cons, sumPoints_cons, alookup_cons, if_pos he]
      simp only [Option.getD_some]
      omega
    · rw [if_neg he, sumPoints_cons, alookup_cons, if_neg he, sumPoints_cons]
      omega

theorem sumPoints_aremove (l : List (Addr × Nat)) (a : Addr)
    (hnd : keysNodup l) :
    sumPoints (aremove l a) + (alookup l a).getD 0 = sumPoints l := by
  induction l with
  | nil => simp [aremove, sumPoints, alookup]
  | cons kv rest ih =>
    rw [keysNodup, akeys_cons, List.nodup_cons] at hnd
    rw [aremove_cons]
    by_cases he : kv.1 = a
    · rw [if_pos he, alookup_cons, if_pos he]
      have hna : a ∉ akeys rest := by rw [← he]; exact hnd.1
      rw [aremove_of_not_mem rest a hna, sumPoints_cons]
      simp only [Option.getD_some]
      omega
    · rw [if_neg he, sumPoints_cons, alookup_cons, if_neg he, sumPoints_cons]
      have := ih hnd.2
      omega

theorem alookup_le_sumPoints (l : List (Addr × Nat)) (a : Addr) (v : Nat)
    (h : alookup l a = some v) : v ≤ sumPoints l := by
  induction l with
  | nil => cases h
  | cons kv rest ih =>
    rw [alookup_cons] at h
    by_cases he : kv.1 = a
    · rw [if_pos he] at h
      injection h with h
      rw [sumPoints_cons]
      omega
    · rw [if_neg he] at h
      have := ih h
      rw [sumPoints_cons]
      omega

theorem sumPointsChecked_spec (l : List (Addr × Nat)) (acc t : Nat)
    (h : sumPointsChecked l acc = some t) :
    t = acc + sumPoints l ∧ (acc < U64SIZE → t < U64SIZE) := by
  induction l generalizing acc with
  | nil =>
    rw [sumPointsChecked] at h
    injection h with h
    simp [sumPoints, ← h]
  | cons ap rest ih =>
    obtain ⟨a, p⟩ := ap
    rw [sumPointsChecked] at h
    split at h
    · exact absurd h (by simp)
    · have := ih (acc + p) h
      rw [sumPoints_cons]
      constructor
      · omega
      · intro _
        exact this.2 (by omega)

/-- Evaluation of `withdrawable_rewards` when no checked operation panics and
the share total is in the non-negative signed range. -/
theorem withdrawable_rewards_eval (S pts w : Nat) (c : Int) (dlg : Addr)
    (hSp : S * pts < 2 ^ 127)
    (hc0 : 0 ≤ (S : Int) * pts + c) (hc1 : (S : Int) * pts + c < 2 ^ 127)
    (hw : w ≤ ((S : Int) * pts + c).toNat / 2 ^ SHARES_SHIFT) :
    withdrawable_rewards S pts ⟨c, w, dlg⟩ =
      some (((S : Int) * pts + c).toNat / 2 ^ SHARES_SHIFT - w) := by
  have h128 : S * pts < U128SIZE := lt_trans hSp (by norm_num [U128SIZE])
  have hcast : i128ofU128 (S * pts) = (S : Int) * pts := by
    rw [i128ofU128, if_pos hSp]
    push_cast
    ring
  rw [withdrawable_rewards, if_pos h128, hcast]
  have hrange : I128MIN ≤ (S : Int) * pts + c ∧ (S : Int) * pts + c ≤ I128MAX := by
    constructor
    · refine le_trans ?_ hc0
      rw [I128MIN]
      omega
    · rw [I128MAX]
      omega
  rw [if_pos hrange]
  have hmod : ((S : Int) * pts + c) % (U128SIZE : Int) = (S : Int) * pts + c := by
    apply Int.emod_eq_of_lt hc0
    calc (S : Int) * pts + c < 2 ^ 127 := hc1
    _ < ((U128SIZE : Nat) : Int) := by norm_num [U128SIZE]
  rw [u128ofI128, hmod]
  rw [Nat.shiftRight_eq_div_pow]
  rw [if_pos hw]

/-- C1: in the engagement engine, for a member with points `p`, correction `c`
and withdrawn amount `w`, the withdrawable reward computed by
`withdrawable_rewards` equals `((shares_per_point * p + c) >> SHARES_SHIFT) - w`
(the sum taken as a signed 128-bit value, the shift applied after
reinterpreting as unsigned); and a membership points change of delta
`D = p' - p` at prevailing `S = shares_per_point` decrements the member's
`shares_correction` by `S * D`, so the withdrawable amount is unchanged by the
points update itself.  The hypotheses confine the values to the range in which
none of the checked machine operations panics. -/
theorem withdrawable_rewards_correction_invariant
    (S p p' w : Nat) (c : Int) (dlg : Addr)
    (hS : S < 2 ^ 127)
    (hSp : S * p < 2 ^ 127) (hSp' : S * p' < 2 ^ 127)
    (hc0 : 0 ≤ (S : Int) * p + c) (hc1 : (S : Int) * p + c < 2 ^ 127)
    (hw : w ≤ ((S : Int) * p + c).toNat / 2 ^ SHARES_SHIFT) :
    withdrawable_rewards S p ⟨c, w, dlg⟩ =
      some (((S : Int) * p + c).toNat / 2 ^ SHARES_SHIFT - w)
    ∧ apply_points_correction ⟨c, w, dlg⟩ S ((p' : Int) - (p : Int)) =
      some ⟨c - (S : Int) * ((p' : Int) - (p : Int)), w, dlg⟩
    ∧ withdrawable_rewards S p' ⟨c - (S : Int) * ((p' : Int) - (p : Int)), w, dlg⟩ =
      withdrawable_rewards S p ⟨c, w, dlg⟩ := by
  have key : (S : Int) * p' + (c - (S : Int) * ((p' : Int) - (p : Int))) =
      (S : Int) * p + c := by ring
  have hb1 : (S : Int) * p < 2 ^ 127 := by exact_mod_cast hSp
  have hb2 : (S : Int) * p' < 2 ^ 127 := by exact_mod_cast hSp'
  have hn1 : (0 : Int) ≤ (S : Int) * p :=
    mul_nonneg (Int.natCast_nonneg _) (Int.natCast_nonneg _)
  have hn2 : (0 : Int) ≤ (S : Int) * p' :=
    mul_nonneg (Int.natCast_nonneg _) (Int.natCast_nonneg _)
  have e1 := withdrawable_rewards_eval S p w c dlg hSp hc0 hc1 hw
  have e2 := withdrawable_rewards_eval S p' w
    (c - (S : Int) * ((p' : Int) - (p : Int))) dlg hSp'
    (by rw [key]; exact hc0) (by rw [key]; exact hc1) (by rw [key]; exact hw)
  refine ⟨e1, ?_, ?_⟩
  · rw [apply_points_correction]
    have hcast : i128ofU128 S = (S : Int) := by rw [i128ofU128, if_pos hS]
    rw [hcast]
    have hd : (S : Int) * ((p' : Int) - (p : Int)) =
        (S : Int) * p' - (S : Int) * p := by ring
    have hprod : I128MIN ≤ (S : Int) * ((p' : Int) - (p : Int)) ∧
        (S : Int) * ((p' : Int) - (p : Int)) ≤ I128MAX := by
      rw [hd, I128MIN, I128MAX]
      omega
    rw [if_pos hprod]
    have hc' : I128MIN ≤ c - (S : Int) * ((p' : Int) - (p : Int)) ∧
        c - (S : Int) * ((p' : Int) - (p : Int)) ≤ I128MAX := by
      have h1 : c - (S : Int) * ((p' : Int) - (p : Int)) =
          ((S : Int) * p + c) - (S : Int) * p' := by ring
      rw [h1, I128MIN, I128MAX]
      omega
    rw [if_pos hc']
  · rw [e1, e2, key]

set_option maxRecDepth 8192 in
/-- Witness for C1 at `S = 2^32`, `p = 2`, `p' = 5`, `c = 0`, `w = 1`. -/
theorem withdrawable_rewards_correction_invariant_witness :
    withdrawable_rewards (2 ^ 32) 2 ⟨0, 1, "alice"⟩ = some 1
    ∧ apply_points_correction ⟨0, 1, "alice"⟩ (2 ^ 32)
        (((5 : Nat) : Int) - ((2 : Nat) : Int)) =
      some ⟨-(3 * 2 ^ 32), 1, "alice"⟩
    ∧ withdrawable_rewards (2 ^ 32) 5
        ⟨(0 : Int) - ((2 ^ 32 : Nat) : Int) * (((5 : Nat) : Int) - ((2 : Nat) : Int)),
         1, "alice"⟩ =
      withdrawable_rewards (2 ^ 32) 2 ⟨0, 1, "alice"⟩ := by
  have h := withdrawable_rewards_correction_invariant (2 ^ 32) 2 5 1 0 "alice"
    (by norm_num) (by norm_num) (by norm_num) (by norm_num) (by norm_num)
    (by norm_num [SHARES_SHIFT]; decide)
  refine ⟨?_, ?_, h.2.2⟩
  · rw [h.1]
    norm_num [SHARES_SHIFT]
    decide
  · rw [h.2.1]
    norm_num

/-- C2: with total points `T > 0` and a positive
`amount = bank_balance(denom) - withdrawable_total`, `distribute_rewards`
sets `points = (amount << SHARES_SHIFT) + shares_leftover`, increments
`shares_per_point` by `points / T`, sets `shares_leftover` to `points % T`,
increments `distributed_total` and `withdrawable_total` by exactly `amount`,
and leaves members, total and withdraw adjustments unchanged.  The hypotheses
keep all checked machine operations in range. -/
theorem distribute_rewards_updates_distribution
    (st : EEState) (balance : Nat) (sender : Addr) (amount pts : Nat)
    (hamount : amount = balance - st.distribution.withdrawable_total)
    (hpts : pts = amount * 2 ^ SHARES_SHIFT + st.distribution.shares_leftover)
    (ht : 0 < st.total) (ht64 : st.total < U64SIZE)
    (hwb : st.distribution.withdrawable_total ≤ balance)
    (hpos : 0 < amount)
    (hnoshift : pts < U128SIZE)
    (hspp : st.distribution.shares_per_point + pts / st.total < U128SIZE)
    (hdt : st.distribution.distributed_total + amount < U128SIZE)
    (hwt : st.distribution.withdrawable_total + amount < U128SIZE) :
    execute_distribute_rewards st balance sender =
      .ok ({ st with distribution :=
              { st.distribution with
                shares_per_point :=
                  st.distribution.shares_per_point + pts / st.total,
                shares_leftover := pts % st.total,
                distributed_total := st.distribution.distributed_total + amount,
                withdrawable_total :=
                  st.distribution.withdrawable_total + amount } },
           ⟨[("action", "distribute_rewards"), ("sender", sender),
             ("denom", st.distribution.denom), ("amount", toString amount)],
            [], []⟩) := by
  subst hamount
  simp only [execute_distribute_rewards]
  rw [if_neg (by simp only [beq_iff_eq]; omega :
    ¬ ((st.total == 0) = true))]
  rw [if_neg (not_lt.mpr hwb)]
  rw [if_neg (by simp only [beq_iff_eq]; omega :
    ¬ (((balance - st.distribution.withdrawable_total) == 0) = true))]
  have hsh : (balance - st.distribution.withdrawable_total) * 2 ^ SHARES_SHIFT
      % U128SIZE =
      (balance - st.distribution.withdrawable_total) * 2 ^ SHARES_SHIFT :=
    Nat.mod_eq_of_lt (by omega)
  rw [hsh]
  rw [if_neg (not_le.mpr (by omega))]
  rw [if_neg (not_le.mpr (by rw [← hpts]; exact hspp))]
  rw [if_neg (not_le.mpr (by omega))]
  rw [if_neg (not_le.mpr (by omega))]
  have hml : ((balance - st.distribution.withdrawable_total) * 2 ^ SHARES_SHIFT
      + st.distribution.shares_leftover) % st.total % U64SIZE =
      ((balance - st.distribution.withdrawable_total) * 2 ^ SHARES_SHIFT
      + st.distribution.shares_leftover) % st.total :=
    Nat.mod_eq_of_lt (lt_trans (Nat.mod_lt _ ht) ht64)
  rw [hml, hpts]

/-- Witness for C2: members with 17 total points, balance 170, nothing
distributed yet. -/
theorem distribute_rewards_updates_distribution_witness :
    execute_distribute_rewards
      ⟨[("a", 11), ("b", 6)], 17, ⟨"usdc", 0, 0, 0, 0⟩, []⟩ 170 "a" =
      .ok (⟨[("a", 11), ("b", 6)], 17,
            ⟨"usdc", (170 * 2 ^ 32) / 17, (170 * 2 ^ 32) % 17, 170, 170⟩, []⟩,
           ⟨[("action", "distribute_rewards"), ("sender", "a"),
             ("denom", "usdc"), ("amount", "170")], [], []⟩) := by
  have h := distribute_rewards_updates_distribution
    ⟨[("a", 11), ("b", 6)], 17, ⟨"usdc", 0, 0, 0, 0⟩, []⟩ 170 "a"
    170 (170 * 2 ^ 32) rfl (by norm_num [SHARES_SHIFT]) (by norm_num)
    (by norm_num [U64SIZE]) (by norm_num) (by norm_num)
    (by norm_num [U128SIZE]) (by norm_num [U128SIZE]) (by norm_num [U128SIZE])
    (by norm_num [U128SIZE])
  rw [h]
  rfl

/-- C8: `distribute_rewards` fails with `NoMembersToDistributeTo` exactly
when the total points are zero, and with positive total and a computed
`amount = bank_balance(denom) - withdrawable_total` equal to zero it succeeds
as a silent no-op: unchanged state, empty response, no messages. -/
theorem distribute_rewards_error_and_noop
    (st : EEState) (balance : Nat) (sender : Addr) :
    (execute_distribute_rewards st balance sender =
        .error .noMembersToDistributeTo ↔ st.total = 0)
    ∧ (0 < st.total → st.distribution.withdrawable_total ≤ balance →
        balance - st.distribution.withdrawable_total = 0 →
        execute_distribute_rewards st balance sender =
          .ok (st, ⟨[], [], []⟩)) := by
  constructor
  · constructor
    · intro h
      by_contra hc
      simp only [execute_distribute_rewards] at h
      rw [if_neg (by simp only [beq_iff_eq]; omega :
        ¬ ((st.total == 0) = true))] at h
      repeat' split at h
      all_goals
        first
          | exact ContractError.noConfusion (Except.error.inj h)
          | exact Except.noConfusion h
    · intro h
      rw [execute_distribute_rewards, if_pos (by simp [h] : (st.total == 0) = true)]
  · intro ht hwb ha
    rw [execute_distribute_rewards]
    rw [if_neg (by simp only [beq_iff_eq]; omega : ¬ ((st.total == 0) = true))]
    rw [if_neg (not_lt.mpr hwb)]
    rw [if_pos (by simp only [beq_iff_eq]; omega :
      ((balance - st.distribution.withdrawable_total) == 0) = true)]

/-- Witness for C8: the zero-total error case and the zero-amount no-op
case at concrete states. -/
theorem distribute_rewards_error_and_noop_witness :
    execute_distribute_rewards ⟨[], 0, ⟨"usdc", 0, 0, 0, 0⟩, []⟩ 5 "a" =
      .error .noMembersToDistributeTo
    ∧ execute_distribute_rewards
        ⟨[("a", 3)], 3, ⟨"usdc", 0, 0, 7, 20⟩, []⟩ 20 "a" =
      .ok (⟨[("a", 3)], 3, ⟨"usdc", 0, 0, 7, 20⟩, []⟩, ⟨[], [], []⟩) := by
  constructor
  · exact (distribute_rewards_error_and_noop
      ⟨[], 0, ⟨"usdc", 0, 0, 0, 0⟩, []⟩ 5 "a").1.mpr rfl
  · exact (distribute_rewards_error_and_noop
      ⟨[("a", 3)], 3, ⟨"usdc", 0, 0, 7, 20⟩, []⟩ 20 "a").2
      (by norm_num) (by norm_num) (by norm_num)

/-- C10: in the engagement engine's `execute_slash` the membership check
precedes portion validation: a call by a registered slasher on an address
that is not a current member succeeds as a no-op with an empty response for
any portion value, including portions greater than one that are rejected with
`InvalidPortion` when the address is a member. -/
theorem slash_unknown_member_noop
    (slashers : List Addr) (st : EEState) (sender addr : Addr) (portion : Nat)
    (hs : slashers.contains sender = true) :
    (alookup st.members addr = none →
      execute_slash slashers st sender addr portion = .ok (st, ⟨[], [], []⟩))
    ∧ (∀ old, alookup st.members addr = some old →
        DECIMAL_FRACTIONAL < portion →
        execute_slash slashers st sender addr portion =
          .error .invalidPortion) := by
  constructor
  · intro hnone
    rw [execute_slash, if_neg (fun hc => hc hs), hnone]
  · intro old hsome hp
    rw [execute_slash, if_neg (fun hc => hc hs), hsome]
    rw [validate_portion, if_neg (not_le.mpr hp)]

/-- Witness for C10: a slasher slashing an unknown address with portion 3.0
gets a silent no-op, while the same portion on a member is rejected. -/
theorem slash_unknown_member_noop_witness :
    execute_slash ["s"] ⟨[("b", 5)], 5, ⟨"utgd", 0, 0, 0, 0⟩, []⟩ "s" "a"
        (3 * 10 ^ 18) =
      .ok (⟨[("b", 5)], 5, ⟨"utgd", 0, 0, 0, 0⟩, []⟩, ⟨[], [], []⟩)
    ∧ execute_slash ["s"] ⟨[("b", 5)], 5, ⟨"utgd", 0, 0, 0, 0⟩, []⟩ "s" "b"
        (3 * 10 ^ 18) =
      .error .invalidPortion := by
  constructor
  · exact (slash_unknown_member_noop ["s"]
      ⟨[("b", 5)], 5, ⟨"utgd", 0, 0, 0, 0⟩, []⟩ "s" "a" (3 * 10 ^ 18)
      (by decide)).1 (by decide)
  · exact (slash_unknown_member_noop ["s"]
      ⟨[("b", 5)], 5, ⟨"utgd", 0, 0, 0, 0⟩, []⟩ "s" "b" (3 * 10 ^ 18)
      (by decide)).2 5 (by decide) (by norm_num [DECIMAL_FRACTIONAL])

theorem optFieldInvalid_false_iff (o : Option String) :
    optFieldInvalid o = false ↔
      ∀ s, o = some s → 1 ≤ s.utf8ByteSize ∧ s.utf8ByteSize ≤ 256 := by
  cases o with
  | none => simp [optFieldInvalid]
  | some s =>
    simp only [optFieldInvalid, MAX_METADATA_SIZE, Bool.or_eq_false_iff,
      decide_eq_false_iff_not, Option.some.injEq]
    constructor
    · rintro ⟨h1, h2⟩ s' he
      subst he
      omega
    · intro h
      have := h s rfl
      omega

theorem websiteBadStart_false_iff (o : Option String) :
    websiteBadStart o = false ↔
      ∀ s, o = some s →
        (strStartsWith s "https://" = true ∨ strStartsWith s "http://" = true) := by
  cases o with
  | none => simp [websiteBadStart]
  | some s =>
    simp only [websiteBadStart, Bool.not_eq_false', Bool.or_eq_true,
      Option.some.injEq]
    constructor
    · intro h s' he
      subst he
      exact h
    · intro h
      exact h s rfl

/-- C9: validator metadata validation succeeds exactly when the moniker byte
length is between 3 and 256, each present optional field is non-empty and at
most 256 bytes, and a present website starts with `http://` or `https://`;
each violation is rejected with the corresponding `InvalidMetadata` or
`InvalidMetadataWebsitePrefix` error (checked in source order). -/
theorem metadata_validate_characterization (m : ValidatorMetadata) :
    (m.validate = .ok () ↔
      (MIN_MONIKER_LENGTH ≤ m.moniker.utf8ByteSize ∧
       m.moniker.utf8ByteSize ≤ MAX_METADATA_SIZE ∧
       (∀ s, m.identity = some s → 1 ≤ s.utf8ByteSize ∧ s.utf8ByteSize ≤ 256) ∧
       (∀ s, m.website = some s →
         (1 ≤ s.utf8ByteSize ∧ s.utf8ByteSize ≤ 256) ∧
         (strStartsWith s "https://" = true ∨ strStartsWith s "http://" = true)) ∧
       (∀ s, m.security_contact = some s →
         1 ≤ s.utf8ByteSize ∧ s.utf8ByteSize ≤ 256) ∧
       (∀ s, m.details = some s → 1 ≤ s.utf8ByteSize ∧ s.utf8ByteSize ≤ 256)))
    ∧ (m.moniker.utf8ByteSize < MIN_MONIKER_LENGTH ∨
        MAX_METADATA_SIZE < m.moniker.utf8ByteSize →
        m.validate = .error (.invalidMetadata "moniker" MIN_MONIKER_LENGTH
          MAX_METADATA_SIZE))
    ∧ (MIN_MONIKER_LENGTH ≤ m.moniker.utf8ByteSize →
        m.moniker.utf8ByteSize ≤ MAX_METADATA_SIZE →
        optFieldInvalid m.identity = true →
        m.validate = .error (.invalidMetadata "identity" MIN_METADATA_SIZE
          MAX_METADATA_SIZE))
    ∧ (MIN_MONIKER_LENGTH ≤ m.moniker.utf8ByteSize →
        m.moniker.utf8ByteSize ≤ MAX_METADATA_SIZE →
        optFieldInvalid m.identity = false →
        optFieldInvalid m.website = true →
        m.validate = .error (.invalidMetadata "website" MIN_METADATA_SIZE
          MAX_METADATA_SIZE))
    ∧ (MIN_MONIKER_LENGTH ≤ m.moniker.utf8ByteSize →
        m.moniker.utf8ByteSize ≤ MAX_METADATA_SIZE →
        optFieldInvalid m.identity = false →
        optFieldInvalid m.website = false →
        websiteBadStart m.website = true →
        m.validate = .error .invalidMetadataWebsitePrefix)
    ∧ (MIN_MONIKER_LENGTH ≤ m.moniker.utf8ByteSize →
        m.moniker.utf8ByteSize ≤ MAX_METADATA_SIZE →
        optFieldInvalid m.identity = false →
        optFieldInvalid m.website = false →
        websiteBadStart m.website = false →
        optFieldInvalid m.security_contact = true →
        m.validate = .error (.invalidMetadata "security_contract"
          MIN_METADATA_SIZE MAX_METADATA_SIZE))
    ∧ (MIN_MONIKER_LENGTH ≤ m.moniker.utf8ByteSize →
        m.moniker.utf8ByteSize ≤ MAX_METADATA_SIZE →
        optFieldInvalid m.identity = false →
        optFieldInvalid m.website = false →
        websiteBadStart m.website = false →
        optFieldInvalid m.security_contact = false →
        optFieldInvalid m.details = true →
        m.validate = .error (.invalidMetadata "details" MIN_METADATA_SIZE
          MAX_METADATA_SIZE)) := by
  have hid := optFieldInvalid_false_iff m.identity
  have hweb := optFieldInvalid_false_iff m.website
  have hsec := optFieldInvalid_false_iff m.security_contact
  have hdet := optFieldInvalid_false_iff m.details
  have hwbs := websiteBadStart_false_iff m.website
  simp only [ValidatorMetadata.validate, MIN_MONIKER_LENGTH, MAX_METADATA_SIZE,
    MIN_METADATA_SIZE] at *
  split_ifs with h1 h2 h3 h4 h5 h6
  · refine ⟨iff_of_false (by simp)
        (fun hr => by obtain ⟨ha, hb, -⟩ := hr; omega),
      fun _ => rfl, ?_, ?_, ?_, ?_, ?_⟩
    all_goals (intros; omega)
  · refine ⟨iff_of_false (by simp) ?_,
      fun hmon => absurd hmon h1, fun _ _ _ => rfl, ?_, ?_, ?_, ?_⟩
    · rintro ⟨-, -, hc, -, -, -⟩
      rw [hid.mpr hc] at h2
      exact Bool.noConfusion h2
    all_goals (intros; simp_all)
  · refine ⟨iff_of_false (by simp) ?_,
      fun hmon => absurd hmon h1, ?_, fun _ _ _ _ => rfl, ?_, ?_, ?_⟩
    · rintro ⟨-, -, -, hd, -, -⟩
      rw [hweb.mpr (fun s hw => (hd s hw).1)] at h3
      exact Bool.noConfusion h3
    all_goals (intros; simp_all)
  · refine ⟨iff_of_false (by simp) ?_,
      fun hmon => absurd hmon h1, ?_, ?_, fun _ _ _ _ _ => rfl, ?_, ?_⟩
    · rintro ⟨-, -, -, hd, -, -⟩
      rw [hwbs.mpr (fun s hw => (hd s hw).2)] at h4
      exact Bool.noConfusion h4
    all_goals (intros; simp_all)
  · refine ⟨iff_of_false (by simp) ?_,
      fun hmon => absurd hmon h1, ?_, ?_, ?_, fun _ _ _ _ _ _ => rfl, ?_⟩
    · rintro ⟨-, -, -, -, he, -⟩
      rw [hsec.mpr he] at h5
      exact Bool.noConfusion h5
    all_goals (intros; simp_all)
  · refine ⟨iff_of_false (by simp) ?_,
      fun hmon => absurd hmon h1, ?_, ?_, ?_, ?_, fun _ _ _ _ _ _ _ => rfl⟩
    · rintro ⟨-, -, -, -, -, hf⟩
      rw [hdet.mpr hf] at h6
      exact Bool.noConfusion h6
    all_goals (intros; simp_all)
  · refine ⟨iff_of_true rfl ?_, ?_, ?_, ?_, ?_, ?_, ?_⟩
    · refine ⟨by omega, by omega, hid.mp (by simp_all), ?_,
        hsec.mp (by simp_all), hdet.mp (by simp_all)⟩
      intro s hw
      exact ⟨(hweb.mp (by simp_all)) s hw, (hwbs.mp (by simp_all)) s hw⟩
    all_goals (intros; simp_all)

/-- Witness for C9: a valid metadata record and one violation of each kind. -/
theorem metadata_validate_characterization_witness :
    ValidatorMetadata.validate ⟨"v-node", none, some "https://x.io", none, none⟩ =
      .ok ()
    ∧ ValidatorMetadata.validate ⟨"ab", none, none, none, none⟩ =
      .error (.invalidMetadata "moniker" MIN_MONIKER_LENGTH MAX_METADATA_SIZE)
    ∧ ValidatorMetadata.validate ⟨"abc", some "", none, none, none⟩ =
      .error (.invalidMetadata "identity" MIN_METADATA_SIZE MAX_METADATA_SIZE)
    ∧ ValidatorMetadata.validate ⟨"abc", none, some "", none, none⟩ =
      .error (.invalidMetadata "website" MIN_METADATA_SIZE MAX_METADATA_SIZE)
    ∧ ValidatorMetadata.validate ⟨"abc", none, some "gopher://x", none, none⟩ =
      .error .invalidMetadataWebsitePrefix
    ∧ ValidatorMetadata.validate ⟨"abc", none, none, some "", none⟩ =
      .error (.invalidMetadata "security_contract" MIN_METADATA_SIZE
        MAX_METADATA_SIZE)
    ∧ ValidatorMetadata.validate ⟨"abc", none, none, none, some ""⟩ =
      .error (.invalidMetadata "details" MIN_METADATA_SIZE MAX_METADATA_SIZE) := by
  refine ⟨?_, ?_, ?_, ?_, ?_, ?_, ?_⟩
  · refine (metadata_validate_characterization _).1.mpr
      ⟨by decide, by decide, by simp, ?_, by simp, by simp⟩
    intro s he
    injection he with he
    subst he
    exact ⟨⟨by decide, by decide⟩, Or.inl (by decide)⟩
  · exact (metadata_validate_characterization _).2.1 (by decide)
  · exact (metadata_validate_characterization _).2.2.1 (by decide) (by decide)
      (by decide)
  · exact (metadata_validate_characterization _).2.2.2.1 (by decide) (by decide)
      (by decide) (by decide)
  · exact (metadata_validate_characterization _).2.2.2.2.1 (by decide)
      (by decide) (by decide) (by decide) (by decide)
  · exact (metadata_validate_characterization _).2.2.2.2.2.1 (by decide)
      (by decide) (by decide) (by decide) (by decide) (by decide)
  · exact (metadata_validate_characterization _).2.2.2.2.2.2 (by decide)
      (by decide) (by decide) (by decide) (by decide) (by decide) (by decide)

theorem applyHalflife_of_gt (p : Nat) (h : 1 < p) : applyHalflife p = p / 2 := by
  rw [applyHalflife, if_neg (by omega), points_reduction,
    Nat.sub_sub_self (Nat.div_le_self p 2)]

/-- C5 counterexample: a single halflife application takes points 3 to 1,
not to `ceil(3 / 2) = 2` as the claim states. -/
theorem halflife_iterate_counterexample :
    applyHalflife^[1] 3 = 1 ∧ (3 + 2 ^ 1 - 1) / 2 ^ 1 = 2 ∧ (1 : Nat) ≠ 2 := by
  decide

/-- C5 (amended): applying the halflife point reduction `k` times to initial
points `p` yields `floor(p / 2^k)` as long as the intermediate values stay
above 1, and any points value at most 1 is left fixed by further halflife
applications. -/
theorem halflife_iterate_floor (p k : Nat)
    (h : ∀ j, j < k → 1 < p / 2 ^ j) :
    applyHalflife^[k] p = p / 2 ^ k
    ∧ ∀ q m, q ≤ 1 → applyHalflife^[m] q = q := by
  constructor
  · induction k generalizing p with
    | zero => simp
    | succ k ih =>
      rw [Function.iterate_succ_apply]
      have h0 : 1 < p := by simpa using h 0 (Nat.succ_pos k)
      rw [applyHalflife_of_gt p h0]
      rw [ih (p / 2) (fun j hj => ?_)]
      · rw [Nat.div_div_eq_div_mul, ← pow_succ']
      · have hx := h (j + 1) (by omega)
        rw [Nat.div_div_eq_div_mul, ← pow_succ']
        exact hx
  · intro q m hq
    induction m with
    | zero => simp
    | succ m ihm =>
      rw [Function.iterate_succ_apply, applyHalflife, if_pos hq]
      exact ihm

/-- Witness for C5 at `p = 100`, `k = 3`, and fixpoint 1. -/
theorem halflife_iterate_floor_witness :
    applyHalflife^[3] 100 = 100 / 2 ^ 3
    ∧ applyHalflife^[2] 1 = 1 := by
  have h := halflife_iterate_floor 100 3 (by decide)
  exact ⟨h.1, h.2 1 2 (by decide)⟩

theorem mem_of_alookup {κ ν : Type} [BEq κ] [LawfulBEq κ] [DecidableEq κ]
    (l : List (κ × ν)) (k : κ) (v : ν)
    (h : alookup l k = some v) : (k, v) ∈ l := by
  induction l with
  | nil => cases h
  | cons kv rest ih =>
    obtain ⟨k0, v0⟩ := kv
    rw [alookup_cons] at h
    by_cases he : k0 = k
    · rw [if_pos (by simpa using he)] at h
      injection h with h
      simp only at h
      rw [← he, ← h]
      exact List.mem_cons_self _ _
    · rw [if_neg (by simpa using he)] at h
      exact List.mem_cons_of_mem _ (ih h)

/-- Characterization of the `end_block` halflife loop: given that the worked
list has distinct keys whose entries agree with the members map, a successful
run accumulates the reductions, rewrites exactly the listed members, leaves
other members, the total and the distribution unchanged, and preserves key
distinctness. -/
theorem end_block_loop_spec (ppw : Nat) (L : List (Addr × Nat)) :
    ∀ (st : EEState) (red : Nat) (st' : EEState) (red' : Nat),
    (akeys L).Nodup →
    (∀ ap ∈ L, alookup st.members ap.1 = some ap.2) →
    end_block_loop ppw L st red = .ok (st', red') →
    red' = red + (L.map (fun ap => points_reduction ap.2)).sum
    ∧ (∀ b, alookup st'.members b =
        match alookup L b with
        | some q => some (q - points_reduction q)
        | none => alookup st.members b)
    ∧ sumPoints st'.members + (L.map (fun ap => points_reduction ap.2)).sum
        = sumPoints st.members
    ∧ (keysNodup st.members → keysNodup st'.members)
    ∧ st'.total = st.total ∧ st'.distribution = st.distribution := by
  induction L with
  | nil =>
    intro st red st' red' _ _ hok
    rw [end_block_loop] at hok
    injection hok with hok
    injection hok with h1 h2
    subst h1
    subst h2
    exact ⟨by simp, fun b => rfl, by simp, fun h => h, rfl, rfl⟩
  | cons ap rest ih =>
    intro st red st' red' hnd hvals hok
    obtain ⟨a, p⟩ := ap
    rw [end_block_loop] at hok
    cases hadj : updateAdjustmentFor st.adjustments a ppw
        (-((points_reduction p : Nat) : Int)) with
    | none =>
      rw [hadj] at hok
      exact absurd hok (by simp)
    | some adjs =>
      rw [hadj] at hok
      rw [akeys_cons, List.nodup_cons] at hnd
      have hvals' : ∀ bp ∈ rest,
          alookup (aset st.members a (p - points_reduction p)) bp.1 =
            some bp.2 := by
        intro bp hbp
        rw [alookup_aset_ne]
        · exact hvals bp (List.mem_cons_of_mem _ hbp)
        · intro he
          exact hnd.1 (he ▸ List.mem_map.mpr ⟨bp, hbp, rfl⟩)
      have hres := ih _ _ _ _ hnd.2 hvals' hok
      obtain ⟨hr1, hr2, hr3, hr4, hr5, hr6⟩ := hres
      have hlk : alookup st.members a = some p :=
        hvals (a, p) (List.mem_cons_self _ _)
      refine ⟨?_, ?_, ?_, ?_, ?_, ?_⟩
      · rw [hr1, List.map_cons, List.sum_cons]
        dsimp only
        omega
      · intro b
        rw [hr2 b, alookup_cons]
        by_cases he : a = b
        · subst he
          rw [alookup_eq_none_of_not_mem rest a hnd.1]
          simp only [if_pos rfl]
          exact alookup_aset_self _ _ _
        · rw [if_neg (by simpa using he)]
          cases hrb : alookup rest b with
          | some q => rfl
          | none =>
            exact alookup_aset_ne _ _ _ _ (fun hc => he hc.symm)
      · have hset := sumPoints_aset st.members a (p - points_reduction p)
        rw [hlk] at hset
        simp only [Option.getD_some] at hset
        have hd : points_reduction p ≤ p := Nat.sub_le _ _
        rw [List.map_cons, List.sum_cons]
        dsimp only at hr3 ⊢
        omega
      · intro hnds
        exact hr4 (keysNodup_aset _ _ _ hnds)
      · exact hr5
      · exact hr6

set_option maxRecDepth 40000 in
/-- C4 counterexample: with a due halflife and one member holding 3 points,
`end_block` stores 1 point, while the claim predicts `3 - floor(3/2) = 2`. -/
theorem end_block_halflife_counterexample :
    (end_block ⟨[("a", 3)], 3, ⟨"utgd", 0, 0, 0, 0⟩, [("a", ⟨0, 0, "a"⟩)]⟩
        ⟨some 10, 0⟩ 10 7).map (fun r => alookup r.1.members "a") =
      .ok (some 1)
    ∧ (3 : Nat) - 3 / 2 = 2 ∧ ¬ ((1 : Nat) = 2) := by
  exact ⟨rfl, by decide, by decide⟩

/-- C4 (amended): when the halflife is due (`now ≥ last_applied + duration`),
`end_block` replaces the points `p` of every member with `p > 1` by
`floor(p / 2)` (removing `p - floor(p/2) = ceil(p/2)` points), leaves members
with `p ≤ 1` unchanged, decrements TOTAL by the sum of all reductions, sets
`last_applied` to `now`, and emits a `halflife` event carrying the block
height and the total reduction; when it is not due, nothing changes. -/
theorem end_block_halflife_spec (st : EEState) (hf : Halflife)
    (now height : Nat) (hnd : keysNodup st.members) :
    (should_apply hf now = false →
      end_block st hf now height = .ok (st, hf, ⟨[], [], []⟩))
    ∧ (should_apply hf now = true →
      ∀ st' hf' resp, end_block st hf now height = .ok (st', hf', resp) →
        (∀ a p, alookup st.members a = some p →
          alookup st'.members a = some (if 1 < p then p / 2 else p))
        ∧ (∀ a, alookup st.members a = none → alookup st'.members a = none)
        ∧ st'.total = st.total -
            ((st.members.filter (fun ap => decide (1 < ap.2))).map
              (fun ap => points_reduction ap.2)).sum
        ∧ st'.distribution = st.distribution
        ∧ hf' = ⟨hf.halflife, now⟩
        ∧ resp = ⟨[], [("halflife",
            [("height", toString height),
             ("reduction", toString
               (((st.members.filter (fun ap => decide (1 < ap.2))).map
                 (fun ap => points_reduction ap.2)).sum))])], []⟩) := by
  constructor
  · intro hnapp
    rw [end_block, if_pos (by simp [hnapp])]
  · intro happ st' hf' resp hok
    rw [end_block, if_neg (by simp [happ])] at hok
    dsimp only at hok
    have hndL : (akeys (st.members.filter (fun ap => decide (1 < ap.2)))).Nodup :=
      hnd.sublist (List.Sublist.map _ (List.filter_sublist _))
    have hvals : ∀ ap ∈ st.members.filter (fun ap => decide (1 < ap.2)),
        alookup st.members ap.1 = some ap.2 := by
      intro ap hap
      obtain ⟨b, q⟩ := ap
      exact alookup_of_mem_nodup _ _ _ hnd (List.mem_of_mem_filter hap)
    cases hloop : end_block_loop st.distribution.shares_per_point
        (st.members.filter (fun ap => decide (1 < ap.2))) st 0 with
    | error e =>
      rw [hloop] at hok
      exact absurd hok (by simp)
    | ok pr =>
      obtain ⟨st1, red⟩ := pr
      rw [hloop] at hok
      dsimp only at hok
      obtain ⟨hr1, hr2, hr3, hr4, hr5, hr6⟩ :=
        end_block_loop_spec st.distribution.shares_per_point
          (st.members.filter (fun ap => decide (1 < ap.2))) st 0 st1 red
          hndL hvals hloop
      split at hok
      · exact absurd hok (by simp)
      · injection hok with hok
        injection hok with hst hok
        injection hok with hhf hresp
        subst hst
        subst hhf
        subst hresp
        have hred : red = ((st.members.filter (fun ap => decide (1 < ap.2))).map
            (fun ap => points_reduction ap.2)).sum := by
          rw [hr1]
          omega
        refine ⟨?_, ?_, ?_, hr6, rfl, by rw [hred]⟩
        · intro a p hp
          have h2 := hr2 a
          dsimp only at h2 ⊢
          rw [h2]
          by_cases hgt : 1 < p
          · have hmem : (a, p) ∈ st.members := mem_of_alookup _ _ _ hp
            have hmemL : (a, p) ∈ st.members.filter (fun ap => decide (1 < ap.2)) :=
              List.mem_filter.mpr ⟨hmem, by simpa using hgt⟩
            rw [alookup_of_mem_nodup _ _ _ hndL hmemL]
            dsimp only
            rw [if_pos hgt]
            rw [points_reduction, Nat.sub_sub_self (Nat.div_le_self p 2)]
          · cases hL : alookup (st.members.filter (fun ap => decide (1 < ap.2))) a with
            | some q =>
              have hmem : (a, q) ∈ st.members.filter (fun ap => decide (1 < ap.2)) :=
                mem_of_alookup _ _ _ hL
              have hq : (1 : Nat) < q := by
                simpa using (List.mem_filter.mp hmem).2
              have : alookup st.members a = some q :=
                alookup_of_mem_nodup _ _ _ hnd (List.mem_of_mem_filter hmem)
              rw [hp] at this
              injection this with this
              omega
            | none =>
              dsimp only
              rw [if_neg hgt, hp]
        · intro a ha
          have h2 := hr2 a
          dsimp only at h2 ⊢
          rw [h2]
          cases hL : alookup (st.members.filter (fun ap => decide (1 < ap.2))) a with
          | some q =>
            have hmem : (a, q) ∈ st.members.filter (fun ap => decide (1 < ap.2)) :=
              mem_of_alookup _ _ _ hL
            have : alookup st.members a = some q :=
              alookup_of_mem_nodup _ _ _ hnd (List.mem_of_mem_filter hmem)
            rw [ha] at this
            exact Option.noConfusion this
          | none => exact ha
        · dsimp only
          rw [hr5, hred]

set_option maxRecDepth 40000 in
/-- Witness for C4: members with 4 and 1 points, halflife of 10 due at time
12; the 4-point member drops to 2, the 1-point member is untouched, and the
total drops by the reduction. -/
theorem end_block_halflife_spec_witness :
    alookup [("a", 2), ("b", 1)] "a" = some 2
    ∧ alookup [("a", 2), ("b", 1)] "b" = some 1
    ∧ (3 : Nat) = 5 -
        ((([("a", 4), ("b", 1)] : List (Addr × Nat)).filter
          (fun ap => decide (1 < ap.2))).map
          (fun ap => points_reduction ap.2)).sum := by
  have h := (end_block_halflife_spec
      ⟨[("a", 4), ("b", 1)], 5, ⟨"utgd", 0, 0, 0, 0⟩,
       [("a", ⟨0, 0, "a"⟩), ("b", ⟨0, 0, "b"⟩)]⟩
      ⟨some 10, 0⟩ 12 7 (by decide)).2 (by decide)
    ⟨[("a", 2), ("b", 1)], 3, ⟨"utgd", 0, 0, 0, 0⟩,
     [("a", ⟨0, 0, "a"⟩), ("b", ⟨0, 0, "b"⟩)]⟩
    ⟨some 10, 12⟩
    ⟨[], [("halflife", [("height", "7"), ("reduction", "2")])], []⟩ rfl
  refine ⟨?_, ?_, ?_⟩
  · have := h.1 "a" 4 (by decide)
    simpa using this
  · have := h.1 "b" 1 (by decide)
    simpa using this
  · exact h.2.2.1

theorem mulDecimal_le (a num : Nat) (h : num ≤ DECIMAL_FRACTIONAL) :
    mulDecimal a num ≤ a := by
  rw [mulDecimal]
  calc a * num / DECIMAL_FRACTIONAL
      ≤ a * DECIMAL_FRACTIONAL / DECIMAL_FRACTIONAL :=
        Nat.div_le_div_right (Nat.mul_le_mul_left _ h)
    _ = a := Nat.mul_div_cancel _ (by norm_num [DECIMAL_FRACTIONAL])

theorem alookup_getD_le_sumPoints (l : List (Addr × Nat)) (a : Addr) :
    (alookup l a).getD 0 ≤ sumPoints l := by
  cases hl : alookup l a with
  | none => simp
  | some v => simpa using alookup_le_sumPoints _ _ _ hl

theorem process_adds_inv (ppw : Nat) (L : List (Addr × Nat)) :
    ∀ (st : EEState) (diffs : List MemberDiff) (st' : EEState)
      (diffs' : List MemberDiff),
    process_adds ppw L st diffs = .ok (st', diffs') →
    keysNodup st.members ∧ sumPoints st.members = st.total ∧ st.total < U64SIZE →
    keysNodup st'.members ∧ sumPoints st'.members = st'.total ∧
      st'.total < U64SIZE := by
  induction L with
  | nil =>
    intro st diffs st' diffs' hok hinv
    rw [process_adds] at hok
    injection hok with hok
    injection hok with h1 h2
    subst h1
    exact hinv
  | cons ap rest ih =>
    intro st diffs st' diffs' hok hinv
    obtain ⟨a, p⟩ := ap
    obtain ⟨hnd, hsum, hlt⟩ := hinv
    rw [process_adds] at hok
    try dsimp only at hok
    by_cases hc1 : st.total < (alookup st.members a).getD 0
    · rw [if_pos hc1] at hok
      exact absurd hok (by simp)
    · rw [if_neg hc1] at hok
      by_cases hc2 : U64SIZE ≤ st.total - (alookup st.members a).getD 0 + p
      · rw [if_pos hc2] at hok
        exact absurd hok (by simp)
      · rw [if_neg hc2] at hok
        cases hadj : updateAdjustmentFor st.adjustments a ppw
            ((p : Int) - ((alookup st.members a).getD 0 : Int)) with
        | none =>
          rw [hadj] at hok
          exact absurd hok (by simp)
        | some adjs =>
          rw [hadj] at hok
          dsimp only at hok
          refine ih _ _ _ _ hok ⟨keysNodup_aset _ _ _ hnd, ?_, by dsimp only; omega⟩
          have hset := sumPoints_aset st.members a p
          have hold := alookup_getD_le_sumPoints st.members a
          dsimp only
          omega

theorem process_removes_inv (ppw : Nat) (L : List Addr) :
    ∀ (st : EEState) (diffs : List MemberDiff) (st' : EEState)
      (diffs' : List MemberDiff),
    process_removes ppw L st diffs = .ok (st', diffs') →
    keysNodup st.members ∧ sumPoints st.members = st.total ∧ st.total < U64SIZE →
    keysNodup st'.members ∧ sumPoints st'.members = st'.total ∧
      st'.total < U64SIZE := by
  induction L with
  | nil =>
    intro st diffs st' diffs' hok hinv
    rw [process_removes] at hok
    injection hok with hok
    injection hok with h1 h2
    subst h1
    exact hinv
  | cons a rest ih =>
    intro st diffs st' diffs' hok hinv
    obtain ⟨hnd, hsum, hlt⟩ := hinv
    rw [process_removes] at hok
    cases hl : alookup st.members a with
    | none =>
      rw [hl] at hok
      dsimp only at hok
      exact ih _ _ _ _ hok ⟨hnd, hsum, hlt⟩
    | some pts =>
      rw [hl] at hok
      dsimp only at hok
      by_cases hc1 : st.total < pts
      · rw [if_pos hc1] at hok
        exact absurd hok (by simp)
      · rw [if_neg hc1] at hok
        cases hadj : updateAdjustmentFor st.adjustments a ppw (-(pts : Int)) with
        | none =>
          rw [hadj] at hok
          exact absurd hok (by simp)
        | some adjs =>
          rw [hadj] at hok
          dsimp only at hok
          refine ih _ _ _ _ hok
            ⟨keysNodup_aremove _ _ hnd, ?_, by dsimp only; omega⟩
          have hrem := sumPoints_aremove st.members a hnd
          rw [hl] at hrem
          simp only [Option.getD_some] at hrem
          dsimp only
          omega

theorem update_members_inv (st : EEState) (add : List (Addr × Nat))
    (rem : List Addr) (st' : EEState) (diffs : List MemberDiff)
    (hok : update_members st add rem = .ok (st', diffs))
    (hinv : keysNodup st.members ∧ sumPoints st.members = st.total ∧
      st.total < U64SIZE) :
    keysNodup st'.members ∧ sumPoints st'.members = st'.total ∧
      st'.total < U64SIZE := by
  rw [update_members] at hok
  try dsimp only at hok
  cases hpa : process_adds st.distribution.shares_per_point add st [] with
  | error e =>
    rw [hpa] at hok
    exact absurd hok (by simp)
  | ok pr =>
    obtain ⟨st1, d1⟩ := pr
    rw [hpa] at hok
    dsimp only at hok
    exact process_removes_inv _ _ _ _ _ _ hok
      (process_adds_inv _ _ _ _ _ _ hpa hinv)

theorem execute_add_points_inv (st : EEState) (a : Addr) (p : Nat)
    (st' : EEState) (diffs : List MemberDiff)
    (hok : execute_add_points st a p = .ok (st', diffs))
    (hinv : keysNodup st.members ∧ sumPoints st.members = st.total ∧
      st.total < U64SIZE) :
    keysNodup st'.members ∧ sumPoints st'.members = st'.total ∧
      st'.total < U64SIZE := by
  rw [execute_add_points] at hok
  try dsimp only at hok
  by_cases hc : U64SIZE ≤ (alookup st.members a).getD 0 + p
  · rw [if_pos hc] at hok
    exact absurd hok (by simp)
  · rw [if_neg hc] at hok
    exact update_members_inv _ _ _ _ _ hok hinv

theorem execute_slash_inv (sl : List Addr) (st : EEState) (sender a : Addr)
    (portion : Nat) (st' : EEState) (r : Response)
    (hok : execute_slash sl st sender a portion = .ok (st', r))
    (hinv : keysNodup st.members ∧ sumPoints st.members = st.total ∧
      st.total < U64SIZE) :
    keysNodup st'.members ∧ sumPoints st'.members = st'.total ∧
      st'.total < U64SIZE := by
  obtain ⟨hnd, hsum, hlt⟩ := hinv
  rw [execute_slash] at hok
  by_cases hs : ¬ sl.contains sender
  · rw [if_pos hs] at hok
    exact absurd hok (by simp)
  · rw [if_neg hs] at hok
    cases hl : alookup st.members a with
    | none =>
      rw [hl] at hok
      injection hok with hok
      injection hok with h1 h2
      subst h1
      exact ⟨hnd, hsum, hlt⟩
    | some old =>
      rw [hl] at hok
      rw [validate_portion] at hok
      by_cases hp : portion ≤ DECIMAL_FRACTIONAL
      · rw [if_pos hp] at hok
        dsimp only at hok
        cases hadj : updateAdjustmentFor st.adjustments a
            st.distribution.shares_per_point (-((mulDecimal old portion : Nat) : Int)) with
        | none =>
          rw [hadj] at hok
          exact absurd hok (by simp)
        | some adjs =>
          rw [hadj] at hok
          dsimp only at hok
          injection hok with hok
          injection hok with h1 h2
          subst h1
          have hsl : mulDecimal old portion ≤ old := mulDecimal_le _ _ hp
          have hole : old ≤ sumPoints st.members := alookup_le_sumPoints _ _ _ hl
          have hset := sumPoints_aset st.members a (old - mulDecimal old portion)
          rw [hl] at hset
          simp only [Option.getD_some] at hset
          have htot : ((((st.total : Int) + -((mulDecimal old portion : Nat) : Int))
              % (U64SIZE : Int)).toNat) = st.total - mulDecimal old portion := by
            have h1 : (st.total : Int) + -((mulDecimal old portion : Nat) : Int) =
                ((st.total - mulDecimal old portion : Nat) : Int) := by
              rw [Int.natCast_sub (by omega)]
              ring
            rw [h1, Int.emod_eq_of_lt (by positivity) (by exact_mod_cast by omega : ((st.total - mulDecimal old portion : Nat) : Int) < ((U64SIZE : Nat) : Int))]
            exact Int.toNat_natCast _
          refine ⟨keysNodup_aset _ _ _ hnd, ?_, ?_⟩
          · dsimp only
            rw [htot]
            omega
          · dsimp only
            rw [htot]
            omega
      · rw [if_neg hp] at hok
        exact absurd hok (by simp)

theorem end_block_inv (st : EEState) (hf : Halflife) (now h : Nat)
    (st' : EEState) (hf' : Halflife) (r : Response)
    (hok : end_block st hf now h = .ok (st', hf', r))
    (hinv : keysNodup st.members ∧ sumPoints st.members = st.total ∧
      st.total < U64SIZE) :
    keysNodup st'.members ∧ sumPoints st'.members = st'.total ∧
      st'.total < U64SIZE := by
  obtain ⟨hnd, hsum, hlt⟩ := hinv
  rw [end_block] at hok
  by_cases happ : ¬ should_apply hf now
  · rw [if_pos happ] at hok
    injection hok with hok
    injection hok with h1 h2
    subst h1
    exact ⟨hnd, hsum, hlt⟩
  · rw [if_neg happ] at hok
    dsimp only at hok
    have hndL : (akeys (st.members.filter (fun ap => decide (1 < ap.2)))).Nodup :=
      hnd.sublist (List.Sublist.map _ (List.filter_sublist _))
    have hvals : ∀ ap ∈ st.members.filter (fun ap => decide (1 < ap.2)),
        alookup st.members ap.1 = some ap.2 := by
      intro ap hap
      obtain ⟨b, q⟩ := ap
      exact alookup_of_mem_nodup _ _ _ hnd (List.mem_of_mem_filter hap)
    cases hloop : end_block_loop st.distribution.shares_per_point
        (st.members.filter (fun ap => decide (1 < ap.2))) st 0 with
    | error e =>
      rw [hloop] at hok
      exact absurd hok (by simp)
    | ok pr =>
      obtain ⟨st1, red⟩ := pr
      rw [hloop] at hok
      dsimp only at hok
      obtain ⟨hr1, hr2, hr3, hr4, hr5, hr6⟩ :=
        end_block_loop_spec st.distribution.shares_per_point
          (st.members.filter (fun ap => decide (1 < ap.2))) st 0 st1 red
          hndL hvals hloop
      by_cases hc : st1.total < red
      · rw [if_pos hc] at hok
        exact absurd hok (by simp)
      · rw [if_neg hc] at hok
        injection hok with hok
        injection hok with h1 h2
        subst h1
        refine ⟨hr4 hnd, ?_, ?_⟩
        · dsimp only
          omega
        · dsimp only
          omega

theorem create_inv (ml : List (Addr × Nat)) (denom : String) (st : EEState)
    (h : create ml denom = some st) (hnd : (akeys ml).Nodup) :
    keysNodup st.members ∧ sumPoints st.members = st.total ∧
      st.total < U64SIZE := by
  rw [create] at h
  cases hs : sumPointsChecked ml 0 with
  | none =>
    rw [hs] at h
    exact absurd h (by simp)
  | some t =>
    rw [hs] at h
    injection h with h
    subst h
    have hf := foldl_aset_of_disjoint ml []
      (by intro a ha; simp [akeys]) hnd
    have hspec := sumPointsChecked_spec ml 0 t hs
    rw [List.nil_append] at hf
    refine ⟨?_, ?_, hspec.2 (by norm_num [U64SIZE])⟩
    · show keysNodup (ml.foldl (fun m ap => aset m ap.1 ap.2) [])
      rw [hf]
      exact hnd
    · show sumPoints (ml.foldl (fun m ap => aset m ap.1 ap.2) []) = t
      rw [hf]
      omega

theorem ee_reachable_inv (st : EEState) (h : EEReachable st) :
    keysNodup st.members ∧ sumPoints st.members = st.total ∧
      st.total < U64SIZE := by
  induction h with
  | created ml denom st hc hnd => exact create_inv ml denom st hc hnd
  | updated_members st add rem st' diffs hre hok ih =>
    exact update_members_inv st add rem st' diffs hok ih
  | added_points st a p st' diffs hre hok ih =>
    exact execute_add_points_inv st a p st' diffs hok ih
  | sudo_updated st a p st' diffs hre hok ih =>
    exact update_members_inv st [(a, p)] [] st' diffs hok ih
  | slashed sl st sender a portion st' r hre hok ih =>
    exact execute_slash_inv sl st sender a portion st' r hok ih
  | ended_block st hf now hh st' hf' r hre hok ih =>
    exact end_block_inv st hf now hh st' hf' r hok ih

theorem update_membership_inv (ms : List (Addr × Nat)) (t : Nat) (a : Addr)
    (s : Nat) (cfg : StakeConfig) (ms' : List (Addr × Nat)) (t' : Nat)
    (d : Option MemberDiff)
    (hok : update_membership ms t a s cfg = some (ms', t', d))
    (hinv : keysNodup ms ∧ sumPoints ms = t ∧ t < U64SIZE) :
    keysNodup ms' ∧ sumPoints ms' = t' ∧ t' < U64SIZE := by
  obtain ⟨hnd, hsum, hlt⟩ := hinv
  rw [update_membership] at hok
  dsimp only at hok
  by_cases he : (calc_points s cfg == alookup ms a) = true
  · rw [if_pos he] at hok
    injection hok with hok
    injection hok with h1 h2
    injection h2 with h2 h3
    subst h1
    subst h2
    exact ⟨hnd, hsum, hlt⟩
  · rw [if_neg he] at hok
    by_cases hc1 : U64SIZE ≤ t + (calc_points s cfg).getD 0
    · rw [if_pos hc1] at hok
      exact absurd hok (by simp)
    · rw [if_neg hc1] at hok
      by_cases hc2 : t + (calc_points s cfg).getD 0 < (alookup ms a).getD 0
      · rw [if_pos hc2] at hok
        exact absurd hok (by simp)
      · rw [if_neg hc2] at hok
        injection hok with hok
        injection hok with h1 h2
        injection h2 with h2 h3
        subst h1
        subst h2
        have hold := alookup_getD_le_sumPoints ms a
        cases hnew : calc_points s cfg with
        | some p =>
          rw [hnew] at hc1 hc2
          dsimp only
          simp only [Option.getD_some] at hc1 hc2 ⊢
          have hset := sumPoints_aset ms a p
          refine ⟨keysNodup_aset _ _ _ hnd, ?_, ?_⟩ <;> omega
        | none =>
          rw [hnew] at hc1 hc2
          dsimp only
          simp only [Option.getD_none] at hc1 hc2 ⊢
          have hrem := sumPoints_aremove ms a hnd
          refine ⟨keysNodup_aremove _ _ hnd, ?_, ?_⟩ <;> omega

theorem se_reachable_inv (ms : List (Addr × Nat)) (t : Nat)
    (h : SEReachable ms t) :
    keysNodup ms ∧ sumPoints ms = t ∧ t < U64SIZE := by
  induction h with
  | created => exact ⟨List.nodup_nil, rfl, by norm_num [U64SIZE]⟩
  | stepped ms t a s cfg ms' t' d hre hok ih =>
    exact update_membership_inv ms t a s cfg ms' t' d hok ih

set_option maxRecDepth 40000 in
/-- C3 counterexample: instantiating the engagement engine with a duplicated
address ("a" appearing with 1 and then 2 points) stores TOTAL 3, while the
members map holds a single entry summing to 2. -/
theorem create_duplicate_total_mismatch :
    (create [("a", 1), ("a", 2)] "utgd").map
      (fun st => (st.total, sumPoints st.members)) = some (3, 2)
    ∧ ¬ ((3 : Nat) = 2) := by
  exact ⟨rfl, by decide⟩

/-- C3 (amended): in every engagement-engine state reachable from an
instantiation whose initial member list has pairwise-distinct addresses by
the execute and sudo operations (update_members, add_points, sudo
update_member, slash, halflife end_block), the stored TOTAL equals the sum of
the points of all current members; and likewise for the stake engine from its
instantiation under bond, unbond and slash via its membership update. -/
theorem total_equals_sum_of_points :
    (∀ st, EEReachable st → sumPoints st.members = st.total)
    ∧ (∀ ms t, SEReachable ms t → sumPoints ms = t) :=
  ⟨fun st h => (ee_reachable_inv st h).2.1,
   fun ms t h => (se_reachable_inv ms t h).2.1⟩

set_option maxRecDepth 40000 in
/-- Witness for C3: a freshly instantiated engagement engine with one member
of 2 points, and the freshly instantiated stake engine. -/
theorem total_equals_sum_of_points_witness :
    sumPoints [("a", 2)] = 2 ∧ sumPoints ([] : List (Addr × Nat)) = 0 := by
  refine ⟨?_, ?_⟩
  · exact total_equals_sum_of_points.1
      ⟨[("a", 2)], 2, ⟨"x", 0, 0, 0, 0⟩, [("a", ⟨0, 0, "a"⟩)]⟩
      (EEReachable.created [("a", 2)] "x" _ rfl (by decide))
  · exact total_equals_sum_of_points.2 [] 0 SEReachable.created

set_option maxRecDepth 40000 in
/-- C7 counterexample: with `tokens_per_point = 1` and `min_bond = 1`, a
stake of `2^64` derives stored points `(2^64 / 1) as u64 = 0`, not
`floor(2^64 / 1) = 2^64` as the claim states. -/
theorem calc_points_truncation_counterexample :
    calc_points (2 ^ 64) ⟨"utgd", 1, 1, 100, 0⟩ = some 0
    ∧ (2 ^ 64 : Nat) / 1 = 2 ^ 64 ∧ ¬ ((0 : Nat) = 2 ^ 64) := by
  exact ⟨rfl, by norm_num, by norm_num⟩

/-- C7 (amended): bond, unbond and slash all recompute membership through
`update_membership` from the address's total stake `s = stake + vstake`; the
derived points are `None` exactly when `s < min_bond` and otherwise
`floor(s / tokens_per_point)` reduced modulo `2^64` (the `as u64` cast); the
members map and TOTAL are rewritten only when this value differs from the
currently stored points, and a successful write stores exactly the derived
value. -/
theorem membership_points_derivation (ms : List (Addr × Nat)) (t : Nat)
    (a : Addr) (s : Nat) (cfg : StakeConfig) :
    (calc_points s cfg = none ↔ s < cfg.min_bond)
    ∧ (¬ s < cfg.min_bond →
        calc_points s cfg = some ((s / cfg.tokens_per_point) % U64SIZE))
    ∧ (calc_points s cfg = alookup ms a →
        update_membership ms t a s cfg = some (ms, t, none))
    ∧ (∀ ms' t' d, update_membership ms t a s cfg = some (ms', t', d) →
        alookup ms' a = calc_points s cfg) := by
  refine ⟨?_, ?_, ?_, ?_⟩
  · by_cases h : s < cfg.min_bond <;> simp [calc_points, h]
  · intro h
    rw [calc_points, if_neg h]
  · intro h
    rw [update_membership, if_pos (by simp [h])]
  · intro ms' t' d hok
    rw [update_membership] at hok
    dsimp only at hok
    by_cases he : (calc_points s cfg == alookup ms a) = true
    · rw [if_pos he] at hok
      injection hok with hok
      injection hok with h1 h2
      subst h1
      exact (beq_iff_eq.mp he).symm
    · rw [if_neg he] at hok
      by_cases hc1 : U64SIZE ≤ t + (calc_points s cfg).getD 0
      · rw [if_pos hc1] at hok
        exact absurd hok (by simp)
      · rw [if_neg hc1] at hok
        by_cases hc2 : t + (calc_points s cfg).getD 0 < (alookup ms a).getD 0
        · rw [if_pos hc2] at hok
          exact absurd hok (by simp)
        · rw [if_neg hc2] at hok
          injection hok with hok
          injection hok with h1 h2
          subst h1
          cases hnew : calc_points s cfg with
          | some p =>
            dsimp only
            exact alookup_aset_self _ _ _
          | none =>
            dsimp only
            exact alookup_aremove_self _ _

set_option maxRecDepth 40000 in
/-- Witness for C7 with `tokens_per_point = 1000`, `min_bond = 5000`:
derivation at stake 7500, the no-write short-circuit at stake 12000 with
stored points 12, and the stored value after a write at stake 7500. -/
theorem membership_points_derivation_witness :
    calc_points 7500 ⟨"stake", 1000, 5000, 100, 0⟩ =
      some ((7500 / 1000) % U64SIZE)
    ∧ update_membership [("u", 12)] 12 "u" 12000 ⟨"stake", 1000, 5000, 100, 0⟩ =
      some ([("u", 12)], 12, none)
    ∧ alookup [("u", 7)] "u" = calc_points 7500 ⟨"stake", 1000, 5000, 100, 0⟩ := by
  refine ⟨(membership_points_derivation [] 0 "u" 7500 _).2.1 (by norm_num),
    (membership_points_derivation [("u", 12)] 12 "u" 12000 _).2.2.1 rfl,
    (membership_points_derivation [("u", 12)] 12 "u" 7500 _).2.2.2
      [("u", 7)] 7 (some ⟨"u", some 12, some 7⟩) rfl⟩

/-- Lookup characterization of `Claims::create_claim`: an existing claim at
the `(addr, release_at)` key has both amounts incremented and keeps its other
fields (in particular its creation height); a missing one is inserted fresh;
all other keys are untouched. -/
theorem create_claim_lookup (cs : ClaimsMap) (addr : Addr)
    (amount vest rel h : Nat) (cs' : ClaimsMap)
    (hcc : create_claim cs addr amount vest rel h = some cs') :
    (alookup cs (addr, rel) = none →
      alookup cs' (addr, rel) = some ⟨addr, amount, some vest, rel, h⟩)
    ∧ (∀ c, alookup cs (addr, rel) = some c →
      alookup cs' (addr, rel) =
        some { c with amount := c.amount + amount,
                      vesting_amount :=
                        some (c.vesting_amount.getD 0 + vest) })
    ∧ ∀ k, k ≠ (addr, rel) → alookup cs' k = alookup cs k := by
  rw [create_claim] at hcc
  cases hl : alookup cs (addr, rel) with
  | none =>
    rw [hl] at hcc
    dsimp only at hcc
    injection hcc with hcc
    subst hcc
    refine ⟨fun _ => alookup_aset_self _ _ _, fun c hc => ?_,
      fun k hk => alookup_aset_ne _ _ _ _ hk⟩
    exact Option.noConfusion hc
  | some c0 =>
    rw [hl] at hcc
    dsimp only at hcc
    by_cases h1 : U128SIZE ≤ c0.amount + amount
    · rw [if_pos h1] at hcc
      exact absurd hcc (by simp)
    · rw [if_neg h1] at hcc
      by_cases h2 : U128SIZE ≤ c0.vesting_amount.getD 0 + vest
      · rw [if_pos h2] at hcc
        exact absurd hcc (by simp)
      · rw [if_neg h2] at hcc
        injection hcc with hcc
        subst hcc
        refine ⟨fun hn => ?_, fun c hc => ?_,
          fun k hk => alookup_aset_ne _ _ _ _ hk⟩
        · exact Option.noConfusion hn
        · injection hc with hc
          subst hc
          exact alookup_aset_self _ _ _

/-- C6: every unbond of a positive amount in the configured denom creates or
merges a claim keyed by `(sender, release_at)` with
`release_at = now + unbonding_period`: a fresh claim carries the liquid
component `min(stake, amount)`, the vesting component `amount - stake`
(saturating) and the current height; a merge at an existing key sums both
components and keeps the existing claim's creation height, which is the
earliest of the two when block heights are monotone; other keys are
untouched. -/
theorem unbond_creates_merged_claim (cfg : StakeConfig) (st : SEState)
    (sender : Addr) (amount now height : Nat) (st' : SEState) (resp : Response)
    (hok : execute_unbond cfg st sender amount cfg.denom now height =
      .ok (st', resp)) :
    (alookup st.claims (sender, now + cfg.unbonding_period) = none →
      alookup st'.claims (sender, now + cfg.unbonding_period) =
        some ⟨sender, min ((alookup st.stake sender).getD 0) amount,
          some (amount - (alookup st.stake sender).getD 0),
          now + cfg.unbonding_period, height⟩)
    ∧ (∀ c, alookup st.claims (sender, now + cfg.unbonding_period) = some c →
        alookup st'.claims (sender, now + cfg.unbonding_period) =
          some { c with amount :=
                          c.amount +
                            min ((alookup st.stake sender).getD 0) amount,
                        vesting_amount :=
                          some (c.vesting_amount.getD 0 +
                            (amount - (alookup st.stake sender).getD 0)) }
        ∧ (c.creation_height ≤ height →
            c.creation_height = min c.creation_height height))
    ∧ (∀ k, k ≠ (sender, now + cfg.unbonding_period) →
        alookup st'.claims k = alookup st.claims k) := by
  rw [execute_unbond] at hok
  by_cases h0 : (amount == 0) = true
  · rw [if_pos h0] at hok
    exact absurd hok (by simp)
  · rw [if_neg h0] at hok
    rw [if_neg (by simp)] at hok
    dsimp only at hok
    by_cases h1 : (alookup st.vstake sender).getD 0 <
        amount - (alookup st.stake sender).getD 0
    · rw [if_pos h1] at hok
      exact absurd hok (by simp)
    · rw [if_neg h1] at hok
      cases hcc : create_claim st.claims sender
          (min ((alookup st.stake sender).getD 0) amount)
          (amount - (alookup st.stake sender).getD 0)
          (now + cfg.unbonding_period) height with
      | none =>
        rw [hcc] at hok
        exact absurd hok (by simp)
      | some claims' =>
        rw [hcc] at hok
        dsimp only at hok
        by_cases h2 : U128SIZE ≤
            (alookup st.stake sender).getD 0 - amount +
            ((alookup st.vstake sender).getD 0 -
              (amount - (alookup st.stake sender).getD 0))
        · rw [if_pos h2] at hok
          exact absurd hok (by simp)
        · rw [if_neg h2] at hok
          cases hum : update_membership st.members st.total sender
              ((alookup st.stake sender).getD 0 - amount +
                ((alookup st.vstake sender).getD 0 -
                  (amount - (alookup st.stake sender).getD 0))) cfg with
          | none =>
            rw [hum] at hok
            exact absurd hok (by simp)
          | some tr =>
            obtain ⟨ms2, t2, d2⟩ := tr
            rw [hum] at hok
            dsimp only at hok
            injection hok with hok
            injection hok with hst hresp
            subst hst
            have hc := create_claim_lookup st.claims sender
              (min ((alookup st.stake sender).getD 0) amount)
              (amount - (alookup st.stake sender).getD 0)
              (now + cfg.unbonding_period) height claims' hcc
            refine ⟨fun hn => hc.1 hn, fun c hcm => ?_, fun k hk => hc.2.2 k hk⟩
            exact ⟨hc.2.1 c hcm, fun hle => (Nat.min_eq_left hle).symm⟩

set_option maxRecDepth 40000 in
/-- Witness for C6: unbonding 4500 at time 50 with a 100-second unbonding
period merges into an existing claim at release time 150, summing the liquid
amounts (500 + 4500) and keeping the earlier creation height 3 = min 3 9. -/
theorem unbond_creates_merged_claim_witness :
    alookup [(("u", 150), (⟨"u", 5000, some 0, 150, 3⟩ : Claim))] ("u", 150) =
      some ⟨"u", 500 + min 12000 4500, some (0 + (4500 - 12000)), 150, 3⟩
    ∧ (3 : Nat) = min 3 9 := by
  have h := unbond_creates_merged_claim ⟨"stake", 1000, 5000, 100, 0⟩
    ⟨[("u", 12000)], [], [("u", 12)], 12,
     [(("u", 150), ⟨"u", 500, some 0, 150, 3⟩)]⟩
    "u" 4500 50 9
    ⟨[("u", 7500)], [("u", 0)], [("u", 7)], 7,
     [(("u", 150), ⟨"u", 5000, some 0, 150, 3⟩)]⟩
    ⟨[("action", "unbond"), ("amount", "4500"), ("denom", "stake"),
      ("sender", "u"), ("completion_time", "150")], [], []⟩ rfl
  have hm := h.2.1 ⟨"u", 500, some 0, 150, 3⟩ rfl
  exact ⟨hm.1, hm.2 (by norm_num)⟩

end PoE
